import Mathlib

/-!
Verification of the Recipe Optimizer core of the vs-alloy-calculator
repository (TypeScript) against its natural-language specification.

The TypeScript modules embedded here:
  - src/lib/metalRarity.ts        (scarcity table)
  - src/lib/recipeValidator.ts    (feasibility validator)
  - src/lib/maximizationStrategy.ts (binary search + backtracking solver)
  - src/lib/economicalStrategy.ts (greedy-by-rarity solver)
  - src/lib/recipeOptimizer.ts    (facade)

JavaScript `number` values are modelled as exact fractions (`Frac`):
a numerator over a positive denominator, with all operations performed
exactly.  All numeric literals appearing in the source (percent bounds,
the 0.01 tolerance, the 1e-6 and 1e-9 epsilons) are exactly representable
and all computations stay well inside the range where IEEE doubles are
exact for the integer parts, so the exact-fraction model is faithful for
the integer nugget counts the algorithms produce and compare.
`Math.ceil`, `Math.floor` and `Math.round` (round half toward positive
infinity) are modelled exactly.  JavaScript loops are modelled by
structural recursion (with an explicit fuel argument where the loop is
not structural; the fuel supplied is proved sufficient where it matters).
-/

/-- Exact fraction: the model of a JavaScript `number` in this development.
`den` is kept positive so that order comparisons are plain cross
multiplications. -/
structure Frac where
  num : ℤ
  den : ℕ
  pos : 0 < den

namespace Frac

def ofInt (n : ℤ) : Frac := ⟨n, 1, Nat.one_pos⟩

def add (a b : Frac) : Frac :=
  ⟨a.num * b.den + b.num * a.den, a.den * b.den, Nat.mul_pos a.pos b.pos⟩

def neg (a : Frac) : Frac := ⟨-a.num, a.den, a.pos⟩

def sub (a b : Frac) : Frac := add a (neg b)

def mul (a b : Frac) : Frac :=
  ⟨a.num * b.num, a.den * b.den, Nat.mul_pos a.pos b.pos⟩

/-- Exact division.  Division by zero yields 0, matching the Mathlib
convention for `ℚ` (the embedded code never divides by zero on the paths
the claims are about: every divisor is 100, 5, 2, 128 or a guarded
positive total). -/
def div (a b : Frac) : Frac :=
  if h : 0 < b.num then
    ⟨a.num * b.den, a.den * b.num.toNat, Nat.mul_pos a.pos (by omega)⟩
  else if h2 : b.num < 0 then
    ⟨-(a.num * b.den), a.den * (-b.num).toNat, Nat.mul_pos a.pos (by omega)⟩
  else ⟨0, 1, Nat.one_pos⟩

/-- Boolean `≤` on fractions (cross multiplication, dens positive). -/
def ble (a b : Frac) : Bool := decide (a.num * b.den ≤ b.num * a.den)

/-- Boolean `<` on fractions. -/
def blt (a b : Frac) : Bool := decide (a.num * b.den < b.num * a.den)

/-- `Math.floor` on an exact fraction (integer result). -/
def floor (a : Frac) : ℤ := a.num / (a.den : ℤ)

/-- `Math.ceil` on an exact fraction (integer result). -/
def ceil (a : Frac) : ℤ := -((-a.num) / (a.den : ℤ))

/-- `Math.round` on an exact fraction: round half toward +∞. -/
def round (a : Frac) : ℤ := floor (add a ⟨1, 2, Nat.succ_pos 1⟩)

/-- The value of a fraction as a rational number; all algebraic reasoning
happens through this map. -/
def val (a : Frac) : ℚ := (a.num : ℚ) / (a.den : ℚ)

end Frac

/-! ## Data model (src/types/alloys.ts, src/types/crucible.ts) -/

/-- The eight metal identifiers (`MetalId` union type). -/
inductive MetalId
  | copper | tin | zinc | bismuth | gold | silver | lead | nickel
deriving DecidableEq

/-- `AlloyComponent`: one required ingredient with its percentage band. -/
structure AlloyComponent where
  metalId : MetalId
  minPercent : Frac
  maxPercent : Frac

/-- `AlloyRecipe` (the fields the optimizer reads). -/
structure AlloyRecipe where
  id : String
  name : String
  components : List AlloyComponent

/-- `MetalAmount` (src/lib/metalRarity.ts): a fill-plan entry. -/
structure MetalAmount where
  metalId : MetalId
  nuggets : ℤ

/-- `CrucibleSlot`: one container slot. -/
structure CrucibleSlot where
  id : ℤ
  metalId : Option MetalId
  nuggets : ℤ

/-- `CrucibleState`: the external container-level representation. -/
structure CrucibleState where
  slots : List CrucibleSlot

/-! ## Scarcity table (src/lib/metalRarity.ts) -/

/-- `METAL_RARITY_SCORES` lookup / `getRarityScore`: total on every known
metal, no failure path. -/
def getRarityScore : MetalId → Frac
  | .copper => Frac.ofInt 1
  | .lead => ⟨6, 5, by omega⟩
  | .zinc => Frac.ofInt 2
  | .bismuth => Frac.ofInt 2
  | .tin => Frac.ofInt 3
  | .gold => Frac.ofInt 5
  | .silver => Frac.ofInt 5
  | .nickel => Frac.ofInt 8

/-- `calculateRarityCost`: Σ nuggets × rarity score (a reduce over the
amounts). -/
def calculateRarityCost (amounts : List MetalAmount) : Frac :=
  amounts.foldl
    (fun total a => total.add ((Frac.ofInt a.nuggets).mul (getRarityScore a.metalId)))
    (Frac.ofInt 0)

/-! ## Feasibility validator (src/lib/recipeValidator.ts) -/

/-- `validateSlotCount`: at most 4 non-empty slots. -/
def validateSlotCount (crucible : CrucibleState) : Bool :=
  decide ((crucible.slots.filter
    (fun slot => slot.metalId.isSome && decide (slot.nuggets > 0))).length ≤ 4)

/-- `validateSlotCapacity`: no slot holds more than 128 nuggets. -/
def validateSlotCapacity (crucible : CrucibleState) : Bool :=
  crucible.slots.all (fun slot => decide (slot.nuggets ≤ 128))

/-- Total units of a fill plan: Σ nuggets × 5 (the reduce the validator
uses). -/
def totalUnitsOf (amounts : List MetalAmount) : ℤ :=
  amounts.foldl (fun sum a => sum + a.nuggets * 5) 0

/-- `validatePercentages`: every recipe component present with a nonzero
amount whose percentage is within `[min − 0.01, max + 0.01]`. -/
def validatePercentages (amounts : List MetalAmount) (recipe : AlloyRecipe) : Bool :=
  let totalUnits := totalUnitsOf amounts
  if totalUnits = 0 then false
  else
    recipe.components.all (fun component =>
      match amounts.find? (fun a => a.metalId = component.metalId) with
      | none => false
      | some metalAmount =>
        if metalAmount.nuggets = 0 then false
        else
          let percentage :=
            ((Frac.ofInt (metalAmount.nuggets * 5)).div (Frac.ofInt totalUnits)).mul
              (Frac.ofInt 100)
          let minValid := component.minPercent.sub ⟨1, 100, by omega⟩
          let maxValid := component.maxPercent.add ⟨1, 100, by omega⟩
          !(percentage.blt minValid || maxValid.blt percentage))

/-- `validateTotalUnits`: total units equal exactly ingotCount × 100. -/
def validateTotalUnits (amounts : List MetalAmount) (ingotCount : ℤ) : Bool :=
  decide (totalUnitsOf amounts = ingotCount * 100)

/-- `validateComponentPresence`: every required metal present with a
strictly positive nugget count. -/
def validateComponentPresence (amounts : List MetalAmount) (recipe : AlloyRecipe) : Bool :=
  recipe.components.all (fun component =>
    match amounts.find? (fun a => a.metalId = component.metalId) with
    | none => false
    | some metalAmount => decide (metalAmount.nuggets > 0))

/-- Insert-or-accumulate for the `Map<MetalId, number>` used by
`validateRecipe` (JavaScript `Map` preserves insertion order). -/
def addAmount : List MetalAmount → MetalId → ℤ → List MetalAmount
  | [], m, n => [⟨m, n⟩]
  | a :: rest, m, n =>
    if a.metalId = m then ⟨m, a.nuggets + n⟩ :: rest
    else a :: addAmount rest m n

/-- The slot-aggregation loop of `validateRecipe`: per-metal totals of the
crucible, in first-appearance order, skipping empty/zero slots. -/
def aggregateAmounts (crucible : CrucibleState) : List MetalAmount :=
  crucible.slots.foldl
    (fun acc slot =>
      match slot.metalId with
      | none => acc
      | some m => if slot.nuggets > 0 then addAmount acc m slot.nuggets else acc)
    []

/-- `RecipeValidationResult`. -/
structure RecipeValidationResult where
  valid : Bool
  errors : List String
  warnings : List String

/-- `validateRecipe`: runs every check, collecting one error message per
failing check; valid iff no errors. -/
def validateRecipe (crucible : CrucibleState) (recipe : AlloyRecipe)
    (ingotCount : ℤ) : RecipeValidationResult :=
  let amounts := aggregateAmounts crucible
  let errors :=
    (if !validateSlotCount crucible
      then ["Crucible exceeds maximum of 4 slots"] else []) ++
    (if !validateSlotCapacity crucible
      then ["One or more slots exceed 128 nugget capacity"] else []) ++
    (if !validateComponentPresence amounts recipe
      then ["Recipe is missing one or more required metal components"] else []) ++
    (if !validateTotalUnits amounts ingotCount
      then ["Total units (" ++ toString (totalUnitsOf amounts) ++
            ") does not equal " ++ toString ingotCount ++ " × 100 = " ++
            toString (ingotCount * 100)] else []) ++
    (if !validatePercentages amounts recipe
      then ["One or more metal percentages are outside valid ranges"] else [])
  { valid := errors.isEmpty, errors := errors, warnings := [] }

/-! ## Optimizer result shape (src/lib/maximizationStrategy.ts) -/

/-- The `metadata` record of an `OptimizerResult`.  `mode` is a string at
runtime (the facade copies an arbitrary caller string into it on the
invalid-input path).  `percentages` models the `Record<MetalId, number>`
object: insertion-ordered key/value pairs with in-place overwrite. -/
structure Metadata where
  mode : String
  recipe : AlloyRecipe
  totalNuggets : ℤ
  percentages : List (MetalId × Frac)

/-- `OptimizerResult`: the tagged outcome returned as data. -/
structure OptimizerResult where
  success : Bool
  crucible : Option CrucibleState
  ingotCount : ℤ
  rarityCost : Option Frac
  error : Option String
  metadata : Metadata

/-- Every failure literal in the source has this exact shape: crucible
null, ingotCount 0, no rarityCost, an error message, empty metadata
percentages and zero totalNuggets. -/
def failResult (mode : String) (recipe : AlloyRecipe) (msg : String) : OptimizerResult :=
  { success := false, crucible := none, ingotCount := 0, rarityCost := none,
    error := some msg,
    metadata := { mode := mode, recipe := recipe, totalNuggets := 0, percentages := [] } }

/-! ## Maximization strategy (src/lib/maximizationStrategy.ts) -/

/-- The `while (remaining > 0)` loop of `distributeToSlots`, with fuel
(each iteration consumes at least one nugget, so `remaining.toNat` fuel is
always enough). -/
def distributeGo (metalId : MetalId) : ℕ → ℤ → ℤ → List CrucibleSlot
  | 0, _, _ => []
  | fuel + 1, remaining, slotId =>
    if remaining > 0 then
      let nuggets := min 128 remaining
      ⟨slotId, some metalId, nuggets⟩ ::
        distributeGo metalId fuel (remaining - nuggets) (slotId + 1)
    else []

/-- `distributeToSlots`: split a nugget total into slots of at most 128. -/
def distributeToSlots (metalId : MetalId) (totalNuggets : ℤ) : List CrucibleSlot :=
  distributeGo metalId totalNuggets.toNat totalNuggets 0

/-- `calculatePercentage`: (nuggets × 5 / totalUnits) × 100, 0 when the
total is 0. -/
def calculatePercentage (nuggets totalUnits : ℤ) : Frac :=
  if totalUnits = 0 then Frac.ofInt 0
  else ((Frac.ofInt (nuggets * 5)).div (Frac.ofInt totalUnits)).mul (Frac.ofInt 100)

/-- `Math.ceil(n / 128)`: containers needed by one material. -/
def slotCeil (n : ℤ) : ℤ := -((-n) / 128)

/-- `fitsInFourSlots` (also the `slotsUsed` reduce inside the search):
Σ ceil(nuggets / 128) over the amounts. -/
def slotsUsed (amounts : List MetalAmount) : ℤ :=
  amounts.foldl (fun total a => total + slotCeil a.nuggets) 0

/-- `fitsInFourSlots`: the plan needs at most 4 containers. -/
def fitsInFourSlots (amounts : List MetalAmount) : Bool :=
  decide (slotsUsed amounts ≤ 4)

/-- 0.01: the percentage tolerance shared by search and validator. -/
def tol : Frac := ⟨1, 100, by omega⟩

/-- 0.000001: the unit-conversion epsilon of `findValidRecipe`. -/
def eps6 : Frac := ⟨1, 1000000, by omega⟩

/-- 1e-9: the percent double-check epsilon of `findValidRecipe`. -/
def eps9 : Frac := ⟨1, 1000000000, by omega⟩

/-- `minNuggets` of a component inside `findValidRecipe`:
ceil((((min − 0.01) / 100) × targetUnits − 0.000001) / 5). -/
def minNuggetsFor (c : AlloyComponent) (targetUnits : ℤ) : ℤ :=
  Frac.ceil (((((c.minPercent.sub tol).div (Frac.ofInt 100)).mul
    (Frac.ofInt targetUnits)).sub eps6).div (Frac.ofInt 5))

/-- `maxNuggets` of a component inside `findValidRecipe`:
floor((((max + 0.01) / 100) × targetUnits + 0.000001) / 5). -/
def maxNuggetsFor (c : AlloyComponent) (targetUnits : ℤ) : ℤ :=
  Frac.floor (((((c.maxPercent.add tol).div (Frac.ofInt 100)).mul
    (Frac.ofInt targetUnits)).add eps6).div (Frac.ofInt 5))

/-- The percent the search double-checks: (n × 5 / targetUnits) × 100. -/
def percentFor (n targetUnits : ℤ) : Frac :=
  ((Frac.ofInt (n * 5)).div (Frac.ofInt targetUnits)).mul (Frac.ofInt 100)

/-- The skip condition of the enumeration loop:
percent < min − 0.01 − 1e-9 or percent > max + 0.01 + 1e-9. -/
def outsideCodeBand (c : AlloyComponent) (percent : Frac) : Bool :=
  percent.blt ((c.minPercent.sub tol).sub eps9) ||
    ((c.maxPercent.add tol).add eps9).blt percent

/-- The acceptance condition of the last-component branch:
min − 0.01 − 1e-9 ≤ percent ≤ max + 0.01 + 1e-9. -/
def withinCodeBand (c : AlloyComponent) (percent : Frac) : Bool :=
  ((c.minPercent.sub tol).sub eps9).ble percent &&
    percent.ble ((c.maxPercent.add tol).add eps9)

/-- The `for (let n = globalMin; n <= globalMax; n++)` loop with early
return: try `f` on consecutive integers, first `some` wins. -/
def firstSome {α : Type} (f : ℤ → Option α) : ℤ → ℕ → Option α
  | _, 0 => none
  | n, count + 1 =>
    match f n with
    | some r => some r
    | none => firstSome f (n + 1) count

/-- The recursive backtracking search `solve` inside `findValidRecipe`,
recursing over the remaining components (the fuel argument makes the
recursion structural; `findValidRecipe` supplies `length + 1`, which is
exactly the recursion depth). -/
def solveF (targetUnits targetNuggets : ℤ) :
    ℕ → List AlloyComponent → ℤ → List MetalAmount → Option (List MetalAmount)
  | 0, _, _, _ => none
  | _ + 1, [], currentNuggets, currentAmounts =>
    if currentNuggets = targetNuggets then
      if fitsInFourSlots currentAmounts then some currentAmounts else none
    else none
  | _ + 1, [component], currentNuggets, currentAmounts =>
    let minNuggets := minNuggetsFor component targetUnits
    let maxNuggets := maxNuggetsFor component targetUnits
    let remainingNuggets := targetNuggets - currentNuggets
    if minNuggets ≤ remainingNuggets ∧ remainingNuggets ≤ maxNuggets then
      if withinCodeBand component (percentFor remainingNuggets targetUnits) then
        let newAmounts := currentAmounts ++ [⟨component.metalId, remainingNuggets⟩]
        if fitsInFourSlots newAmounts then some newAmounts else none
      else none
    else none
  | fuel + 1, component :: rest, currentNuggets, currentAmounts =>
    let minNuggets := minNuggetsFor component targetUnits
    let maxNuggets := maxNuggetsFor component targetUnits
    let minRemaining := (rest.map (fun c => minNuggetsFor c targetUnits)).sum
    let maxRemaining := (rest.map (fun c => maxNuggetsFor c targetUnits)).sum
    let globalMin := max minNuggets (targetNuggets - currentNuggets - maxRemaining)
    let globalMax := min maxNuggets (targetNuggets - currentNuggets - minRemaining)
    firstSome (fun n =>
      if outsideCodeBand component (percentFor n targetUnits) then none
      else
        let newAmounts := currentAmounts ++ [⟨component.metalId, n⟩]
        if fitsInFourSlots newAmounts then
          solveF targetUnits targetNuggets fuel rest (currentNuggets + n) newAmounts
        else none)
      globalMin (globalMax + 1 - globalMin).toNat

/-- `findValidRecipe`: backtracking search for a valid plan for
`ingotCount` output units. -/
def findValidRecipe (recipe : AlloyRecipe) (ingotCount : ℤ) :
    Option (List MetalAmount) :=
  solveF (ingotCount * 100) (ingotCount * 20)
    (recipe.components.length + 1) recipe.components 0 []

/-- The `while (allSlots.length < 4)` padding loop of `amountsToCrucible`
(fuel 4 is exactly enough: each pass appends one empty slot). -/
def padTo4 : ℕ → List CrucibleSlot → List CrucibleSlot
  | 0, slots => slots
  | fuel + 1, slots =>
    if slots.length < 4 then
      padTo4 fuel (slots ++ [⟨(slots.length : ℤ), none, 0⟩])
    else slots

/-- `amountsToCrucible`: distribute every amount into slots, reassign ids
sequentially, pad with empty slots up to 4. -/
def amountsToCrucible (amounts : List MetalAmount) : CrucibleState :=
  let allSlots := (amounts.map (fun a => distributeToSlots a.metalId a.nuggets)).flatten
  let reassigned := allSlots.enum.map (fun p => { p.2 with id := (p.1 : ℤ) })
  ⟨padTo4 4 reassigned⟩

/-- In-place record write `percentages[metalId] = v` (insertion order kept,
existing key overwritten). -/
def setRecord : List (MetalId × Frac) → MetalId → Frac → List (MetalId × Frac)
  | [], m, v => [(m, v)]
  | p :: rest, m, v =>
    if p.1 = m then (m, v) :: rest else p :: setRecord rest m v

/-- `calculatePercentages`: percent of every amount, keyed by metal. -/
def calculatePercentages (amounts : List MetalAmount) : List (MetalId × Frac) :=
  let totalUnits := amounts.foldl (fun sum a => sum + a.nuggets * 5) 0
  amounts.foldl
    (fun recs a => setRecord recs a.metalId (calculatePercentage a.nuggets totalUnits)) []

/-- The `while (low <= high)` binary-search loop of `maximizeIngots`, with
fuel (64 is proved sufficient: the window `[1, 50]` shrinks every pass). -/
def binSearch (recipe : AlloyRecipe) :
    ℕ → ℤ → ℤ → ℤ → Option (List MetalAmount) → ℤ × Option (List MetalAmount)
  | 0, _, _, maxValid, best => (maxValid, best)
  | fuel + 1, low, high, maxValid, best =>
    if low ≤ high then
      let mid := (low + high) / 2
      match findValidRecipe recipe mid with
      | some amounts =>
        if fitsInFourSlots amounts then
          binSearch recipe fuel (mid + 1) high mid (some amounts)
        else binSearch recipe fuel low (mid - 1) maxValid best
      | none => binSearch recipe fuel low (mid - 1) maxValid best
    else (maxValid, best)

/-- `maximizeIngots`: binary search over `[1, 50]` for the largest
feasible ingot count, then defensive validation of the winning plan. -/
def maximizeIngots (recipe : AlloyRecipe) : OptimizerResult :=
  if recipe.components.isEmpty then
    failResult "maximize" recipe "Recipe has no components"
  else
    let sr := binSearch recipe 64 1 50 0 none
    match sr.2 with
    | none =>
      failResult "maximize" recipe
        "No valid recipe configuration found within crucible constraints"
    | some bestAmounts =>
      if sr.1 = 0 then
        failResult "maximize" recipe
          "No valid recipe configuration found within crucible constraints"
      else
        let crucible := amountsToCrucible bestAmounts
        let validation := validateRecipe crucible recipe sr.1
        if !validation.valid then
          failResult "maximize" recipe
            ("Validation failed: " ++ String.intercalate ", " validation.errors)
        else
          { success := true, crucible := some crucible, ingotCount := sr.1,
            rarityCost := none, error := none,
            metadata := { mode := "maximize", recipe := recipe,
                          totalNuggets := bestAmounts.foldl (fun s a => s + a.nuggets) 0,
                          percentages := calculatePercentages bestAmounts } }

/-! ## Economical strategy (src/lib/economicalStrategy.ts) -/

/-- `[...components].sort((a, b) => score(a) − score(b))`: ECMAScript
requires a stable sort, and insertion sort with the reflexive `≤` on
scores computes exactly the unique stable ascending reordering. -/
def sortedByRarity (components : List AlloyComponent) : List AlloyComponent :=
  List.insertionSort
    (fun a b => (getRarityScore a.metalId).ble (getRarityScore b.metalId) = true)
    components

/-- `getMinUnitsForRemaining`: Σ (minPercent / 100) × targetUnits over the
still-unprocessed components. -/
def minUnitsForRemaining (targetUnits : ℤ) (comps : List AlloyComponent) : Frac :=
  comps.foldl
    (fun acc c => acc.add ((c.minPercent.div (Frac.ofInt 100)).mul (Frac.ofInt targetUnits)))
    (Frac.ofInt 0)

/-- The allocation pass of `createEconomicalRecipe` over the
rarity-sorted components: every component but the last gets a biased,
clamped amount; the last gets the exact remainder, checked against its
band with the 0.01 tolerance (the `remainingUnits` here are always a
multiple of 5, so the integer division is exact). -/
def econLoop (targetUnits : ℤ) :
    List AlloyComponent → ℤ → List MetalAmount → Option (List MetalAmount)
  | [], _, _ => none
  | [lastComponent], allocatedUnits, amounts =>
    let remainingUnits := targetUnits - allocatedUnits
    let lastNuggets := remainingUnits / 5
    let lastPercent :=
      ((Frac.ofInt remainingUnits).div (Frac.ofInt targetUnits)).mul (Frac.ofInt 100)
    if lastPercent.blt (lastComponent.minPercent.sub tol) ||
        (lastComponent.maxPercent.add tol).blt lastPercent then none
    else some (amounts ++ [⟨lastComponent.metalId, lastNuggets⟩])
  | component :: rest, allocatedUnits, amounts =>
    let rarityScore := getRarityScore component.metalId
    let remainingUnits := targetUnits - allocatedUnits
    let minUnitsRem := minUnitsForRemaining targetUnits rest
    let maxAvailableUnits := (Frac.ofInt remainingUnits).sub minUnitsRem
    let targetPercent :=
      if rarityScore.ble (Frac.ofInt 2) then component.maxPercent else component.minPercent
    let targetUnitsForComponent :=
      Frac.round ((targetPercent.div (Frac.ofInt 100)).mul (Frac.ofInt targetUnits))
    let nuggets0 := Frac.round ((Frac.ofInt targetUnitsForComponent).div (Frac.ofInt 5))
    let minNuggets :=
      Frac.ceil (((component.minPercent.div (Frac.ofInt 100)).mul
        (Frac.ofInt targetUnits)).div (Frac.ofInt 5))
    let maxNuggets :=
      Frac.floor (((component.maxPercent.div (Frac.ofInt 100)).mul
        (Frac.ofInt targetUnits)).div (Frac.ofInt 5))
    let maxAvailableNuggets := Frac.floor (maxAvailableUnits.div (Frac.ofInt 5))
    let nuggets := max minNuggets (min maxNuggets (min nuggets0 maxAvailableNuggets))
    econLoop targetUnits rest (allocatedUnits + nuggets * 5)
      (amounts ++ [⟨component.metalId, nuggets⟩])

/-- `createEconomicalRecipe`: single-component short-circuit, otherwise the
greedy pass over the rarity-sorted components. -/
def createEconomicalRecipe (recipe : AlloyRecipe) (targetIngots : ℤ) :
    Option (List MetalAmount) :=
  let targetUnits := targetIngots * 100
  match recipe.components with
  | [c] => some [⟨c.metalId, targetUnits / 5⟩]
  | comps => econLoop targetUnits (sortedByRarity comps) 0 []

/-- `optimizeEconomical`: validation preconditions, greedy plan, slot
check, defensive validation, rarity cost. -/
def optimizeEconomical (recipe : AlloyRecipe) (targetIngots : Option ℤ) :
    OptimizerResult :=
  if recipe.components.isEmpty then
    failResult "economical" recipe "Recipe has no components"
  else
    match targetIngots with
    | none =>
      failResult "economical" recipe "Target ingot amount is required for economical mode"
    | some t =>
      if t ≤ 0 then
        failResult "economical" recipe "Target ingot amount must be greater than zero"
      else
        match createEconomicalRecipe recipe t with
        | none =>
          failResult "economical" recipe
            ("Cannot create valid recipe for " ++ toString t ++
              " ingots within percentage constraints")
        | some amounts =>
          if !fitsInFourSlots amounts then
            failResult "economical" recipe
              ("Recipe for " ++ toString t ++ " ingots requires more than 4 crucible slots")
          else
            let crucible := amountsToCrucible amounts
            let validation := validateRecipe crucible recipe t
            if !validation.valid then
              failResult "economical" recipe
                ("Validation failed: " ++ String.intercalate ", " validation.errors)
            else
              { success := true, crucible := some crucible, ingotCount := t,
                rarityCost := some (calculateRarityCost amounts), error := none,
                metadata := { mode := "economical", recipe := recipe,
                              totalNuggets := amounts.foldl (fun s a => s + a.nuggets) 0,
                              percentages := calculatePercentages amounts } }

/-! ## Optimizer facade (src/lib/recipeOptimizer.ts) -/

/-- `OptimizerInput`: runtime shape of the facade's argument (fields may
be absent at runtime, and `mode` may be an arbitrary string). -/
structure OptimizerInput where
  recipe : Option AlloyRecipe
  mode : Option String
  targetIngots : Option ℤ

/-- The `{ id: "", name: "", components: [] }` fallback recipe of the
invalid-input failure path. -/
def emptyRecipe : AlloyRecipe := ⟨"", "", []⟩

/-- `input?.mode || "maximize"` (the empty string is falsy). -/
def modeOrMaximize : Option String → String
  | none => "maximize"
  | some s => if s = "" then "maximize" else s

/-- The defensive deep copy of the facade: new recipe object, new
components array, new component objects. -/
def deepCopyRecipe (r : AlloyRecipe) : AlloyRecipe :=
  { r with components := r.components.map (fun c => ⟨c.metalId, c.minPercent, c.maxPercent⟩) }

/-- JavaScript truthiness of `input.targetIngots` (an absent value and 0
are falsy). -/
def jsTruthyInt : Option ℤ → Bool
  | none => false
  | some t => decide (t ≠ 0)

/-- `optimizeRecipe`: the facade.  Input validation, defensive deep copy,
dispatch.  The `try/catch` wrapper of the source is unreachable in this
model because both embedded solvers are total functions. -/
def optimizeRecipe (input : Option OptimizerInput) : OptimizerResult :=
  match input with
  | none => failResult "maximize" emptyRecipe "Invalid input: recipe is required"
  | some inp =>
    match inp.recipe with
    | none =>
      failResult (modeOrMaximize inp.mode) emptyRecipe "Invalid input: recipe is required"
    | some recipe =>
      if !(inp.mode = some "maximize" || inp.mode = some "economical") then
        failResult "maximize" recipe
          "Invalid input: mode must be \x27maximize\x27 or \x27economical\x27"
      else
        let recipeCopy := deepCopyRecipe recipe
        if inp.mode = some "economical" && !jsTruthyInt inp.targetIngots then
          failResult "economical" recipeCopy
            "Target ingot amount is required for economical mode"
        else
          if inp.mode = some "maximize" then maximizeIngots recipeCopy
          else optimizeEconomical recipeCopy inp.targetIngots

/-! ## State-passing view of a facade call (for the frame property) -/

/-- The facade call with the caller's recipe threaded as explicit state:
the second component is the caller-supplied recipe as observable after the
call.  The only object mutations anywhere in the optimizer modules are the
`slot.id` reassignment in `amountsToCrucible` — which touches only
`CrucibleSlot` objects freshly allocated by `distributeToSlots` during the
same call — and the in-place sort of the spread copy `[...components]` in
`createEconomicalRecipe`; no assignment targets the caller's recipe object
or any nested component object, and the solvers are handed the facade's
deep copy, so every step passes the caller's recipe through unchanged. -/
def optimizeRecipeTracked (input : Option OptimizerInput) :
    OptimizerResult × Option AlloyRecipe :=
  match input with
  | none => (optimizeRecipe none, none)
  | some inp =>
    match inp.recipe with
    | none => (optimizeRecipe (some inp), none)
    | some recipe => (optimizeRecipe (some inp), some recipe)

/-! ## Specification-level definitions -/

/-- A feasible Fill Plan for `n` output units in the sense of the
specification: one nonnegative nugget count per recipe component, exact
total `n × 100` units, at most 4 containers of capacity 128, and every
component's percentage within `[min − 0.01, max + 0.01]`. -/
def SpecFeasiblePlan (recipe : AlloyRecipe) (n : ℤ) (ns : List ℤ) : Prop :=
  ns.length = recipe.components.length ∧
  (∀ x ∈ ns, 0 ≤ x) ∧
  ns.sum * 5 = n * 100 ∧
  (ns.map slotCeil).sum ≤ 4 ∧
  ∀ p ∈ recipe.components.zip ns,
    p.1.minPercent.val - 1 / 100 ≤ (p.2 * 5 * 100 : ℚ) / (n * 100) ∧
    (p.2 * 5 * 100 : ℚ) / (n * 100) ≤ p.1.maxPercent.val + 1 / 100

/-- Some feasible Fill Plan exists for `n` output units. -/
def SpecFeasible (recipe : AlloyRecipe) (n : ℤ) : Prop :=
  ∃ ns, SpecFeasiblePlan recipe n ns

/-- The "common" scarcity threshold of the greedy bias (2.0 in the
source). -/
def commonRarityThreshold : Frac := Frac.ofInt 2

/-- The biased percentage target the claim describes: the component's
maximum allowed percentage for scarcity scores at or below the common
threshold, its minimum allowed percentage above it. -/
def biasedTargetPercent (c : AlloyComponent) : Frac :=
  if (getRarityScore c.metalId).ble commonRarityThreshold then c.maxPercent
  else c.minPercent

/-- The claim's clamp: the rounded biased target, clamped to the
component's own band and to the units still available once the untouched
remaining components' combined minimum percentage is reserved. -/
def clampedBiasedNuggets (targetUnits : ℤ) (c : AlloyComponent)
    (availableUnits : Frac) : ℤ :=
  let wanted :=
    Frac.round ((Frac.ofInt (Frac.round (((biasedTargetPercent c).div
      (Frac.ofInt 100)).mul (Frac.ofInt targetUnits)))).div (Frac.ofInt 5))
  let bandLo :=
    Frac.ceil (((c.minPercent.div (Frac.ofInt 100)).mul
      (Frac.ofInt targetUnits)).div (Frac.ofInt 5))
  let bandHi :=
    Frac.floor (((c.maxPercent.div (Frac.ofInt 100)).mul
      (Frac.ofInt targetUnits)).div (Frac.ofInt 5))
  let avail := Frac.floor (availableUnits.div (Frac.ofInt 5))
  max bandLo (min bandHi (min wanted avail))

/-- The greedy-with-bias pass exactly as the claim words it: components in
ascending scarcity order; all but the last get the clamped biased amount;
the last gets the exact remainder, which must lie in its own band with the
0.01 tolerance — otherwise the attempt fails with no fallback. -/
def econSpecGo (targetUnits : ℤ) :
    List AlloyComponent → ℤ → List MetalAmount → Option (List MetalAmount)
  | [], _, _ => none
  | [last], allocatedUnits, acc =>
    let remainderUnits := targetUnits - allocatedUnits
    let remainderPercent :=
      ((Frac.ofInt remainderUnits).div (Frac.ofInt targetUnits)).mul (Frac.ofInt 100)
    if remainderPercent.blt (last.minPercent.sub tol) ||
        (last.maxPercent.add tol).blt remainderPercent then none
    else some (acc ++ [⟨last.metalId, remainderUnits / 5⟩])
  | c :: rest, allocatedUnits, acc =>
    let availableUnits :=
      (Frac.ofInt (targetUnits - allocatedUnits)).sub
        (minUnitsForRemaining targetUnits rest)
    let n := clampedBiasedNuggets targetUnits c availableUnits
    econSpecGo targetUnits rest (allocatedUnits + n * 5) (acc ++ [⟨c.metalId, n⟩])

/-- The Economical Solver's plan as described by the claim (multi-component
recipes). -/
def econPlanSpec (recipe : AlloyRecipe) (targetIngots : ℤ) :
    Option (List MetalAmount) :=
  econSpecGo (targetIngots * 100) (sortedByRarity recipe.components) 0 []

/-- Independent recomputation of the scarcity cost from the externally
visible Crucible State: Σ nuggets × score over its non-empty slots. -/
def crucibleRarityCost (c : CrucibleState) : ℚ :=
  (c.slots.map (fun s =>
    match s.metalId with
    | none => 0
    | some m => (s.nuggets : ℚ) * (getRarityScore m).val)).sum

/-- Ascending-scarcity ordering on components (value level). -/
def RarityLE (a b : AlloyComponent) : Prop :=
  (getRarityScore a.metalId).val ≤ (getRarityScore b.metalId).val

/-! ## Concrete recipes used to witness the theorems -/

/-- A single-component recipe (100–100%): the simplest recipe the
maximizer succeeds on. -/
def singleCopper : AlloyRecipe :=
  ⟨"copper", "Copper", [⟨.copper, Frac.ofInt 100, Frac.ofInt 100⟩]⟩

/-- Tin Bronze from the repository's alloy data: copper 88–92%, tin
8–12%. -/
def tinBronze : AlloyRecipe :=
  ⟨"tin-bronze", "Tin Bronze",
    [⟨.copper, Frac.ofInt 88, Frac.ofInt 92⟩,
     ⟨.tin, Frac.ofInt 8, Frac.ofInt 12⟩]⟩

/-- An infeasible two-component recipe (60% + 60% cannot total 100%). -/
def impossibleAlloy : AlloyRecipe :=
  ⟨"impossible", "Impossible",
    [⟨.copper, Frac.ofInt 60, Frac.ofInt 60⟩,
     ⟨.tin, Frac.ofInt 60, Frac.ofInt 60⟩]⟩

/-! ## Proofs: exact-fraction lemmas -/

namespace Frac

theorem den_ne_zero (a : Frac) : (a.den : ℚ) ≠ 0 := by
  exact_mod_cast Nat.pos_iff_ne_zero.mp a.pos

theorem val_ofInt (n : ℤ) : val (ofInt n) = (n : ℚ) := by
  simp [val, ofInt]

theorem val_add (a b : Frac) : val (add a b) = val a + val b := by
  have ha := a.den_ne_zero; have hb := b.den_ne_zero
  simp only [val, add]
  push_cast
  field_simp

theorem val_neg (a : Frac) : val (neg a) = -val a := by
  simp [val, neg, neg_div]

theorem val_sub (a b : Frac) : val (sub a b) = val a - val b := by
  rw [sub, val_add, val_neg, sub_eq_add_neg]

theorem val_mul (a b : Frac) : val (mul a b) = val a * val b := by
  have ha := a.den_ne_zero; have hb := b.den_ne_zero
  simp only [val, mul]
  push_cast
  field_simp

theorem val_div (a b : Frac) : val (div a b) = val a / val b := by
  have ha := a.den_ne_zero; have hb := b.den_ne_zero
  rcases lt_trichotomy b.num 0 with h | h | h
  · have hnum : (((-b.num).toNat : ℕ) : ℚ) = -(b.num : ℚ) := by
      have := Int.toNat_of_nonneg (by omega : (0:ℤ) ≤ -b.num)
      exact_mod_cast this
    have hq : (b.num : ℚ) ≠ 0 := by exact_mod_cast h.ne
    simp only [div, dif_neg (by omega : ¬ 0 < b.num), dif_pos h, val]
    rw [Nat.cast_mul, hnum]
    push_cast
    field_simp
  · simp [div, h, val, Frac.den_ne_zero]
  · have hnum : ((b.num.toNat : ℕ) : ℚ) = (b.num : ℚ) := by
      have := Int.toNat_of_nonneg (by omega : (0:ℤ) ≤ b.num)
      exact_mod_cast this
    have hq : (b.num : ℚ) ≠ 0 := by exact_mod_cast h.ne'
    simp only [div, dif_pos h, val]
    rw [Nat.cast_mul, hnum]
    push_cast
    field_simp

theorem ble_iff (a b : Frac) : ble a b = true ↔ val a ≤ val b := by
  have ha : (0 : ℚ) < a.den := by exact_mod_cast a.pos
  have hb : (0 : ℚ) < b.den := by exact_mod_cast b.pos
  simp only [ble, decide_eq_true_eq, val]
  rw [div_le_div_iff ha hb]
  constructor
  · intro h; exact_mod_cast h
  · intro h; exact_mod_cast h

theorem blt_iff (a b : Frac) : blt a b = true ↔ val a < val b := by
  have ha : (0 : ℚ) < a.den := by exact_mod_cast a.pos
  have hb : (0 : ℚ) < b.den := by exact_mod_cast b.pos
  simp only [blt, decide_eq_true_eq, val]
  rw [div_lt_div_iff ha hb]
  constructor
  · intro h; exact_mod_cast h
  · intro h; exact_mod_cast h

theorem blt_eq_false_iff (a b : Frac) : blt a b = false ↔ val b ≤ val a := by
  rw [← not_lt, ← blt_iff]
  cases h : blt a b <;> simp [h]

theorem floor_val (a : Frac) : a.floor = ⌊val a⌋ := by
  rw [floor, val, Rat.floor_intCast_div_natCast]

theorem ceil_val (a : Frac) : a.ceil = ⌈val a⌉ := by
  have h1 : Frac.floor (neg a) = ⌊-(val a)⌋ := by rw [floor_val, val_neg]
  have h2 : Frac.ceil a = -(Frac.floor (neg a)) := rfl
  rw [h2, h1, Int.floor_neg, neg_neg]

theorem round_val (a : Frac) : a.round = ⌊val a + 1 / 2⌋ := by
  rw [round, floor_val, val_add]
  norm_num [val]

end Frac

/-! ## Proofs: generic fold and slot-count lemmas -/

theorem foldl_add_int {α : Type} (g : α → ℤ) :
    ∀ (l : List α) (s : ℤ), l.foldl (fun t a => t + g a) s = s + (l.map g).sum
  | [], s => by simp
  | a :: l, s => by
    rw [List.foldl_cons, foldl_add_int g l (s + g a)]
    simp [add_assoc]

theorem foldl_add_frac {α : Type} (f : α → Frac) :
    ∀ (l : List α) (init : Frac),
      (l.foldl (fun acc c => acc.add (f c)) init).val =
        init.val + ((l.map (fun c => (f c).val)).sum)
  | [], init => by simp
  | a :: l, init => by
    rw [List.foldl_cons, foldl_add_frac f l (init.add (f a)), Frac.val_add]
    simp [add_assoc]

theorem slotCeil_val (n : ℤ) : slotCeil n = ⌈(n : ℚ) / 128⌉ := by
  have hfl := Rat.floor_intCast_div_natCast (-n) 128
  have hcast : (((128 : ℕ) : ℚ)) = (128 : ℚ) := by norm_num
  have hcast2 : (((128 : ℕ) : ℤ)) = (128 : ℤ) := by norm_num
  rw [hcast, hcast2] at hfl
  have hneg : ((-n : ℤ) : ℚ) / (128 : ℚ) = -((n : ℚ) / 128) := by push_cast; ring
  rw [hneg] at hfl
  rw [slotCeil, ← hfl, Int.floor_neg]
  simp

theorem slotCeil_nonneg {n : ℤ} (h : 0 ≤ n) : 0 ≤ slotCeil n := by
  rw [slotCeil_val]
  positivity

theorem le_mul_slotCeil (n : ℤ) : n ≤ 128 * slotCeil n := by
  rw [slotCeil_val]
  have h : (n : ℚ) / 128 ≤ (⌈(n : ℚ) / 128⌉ : ℚ) := Int.le_ceil _
  have h2 : (n : ℚ) ≤ 128 * (⌈(n : ℚ) / 128⌉ : ℚ) := by
    calc (n : ℚ) = 128 * ((n : ℚ) / 128) := by ring
    _ ≤ 128 * (⌈(n : ℚ) / 128⌉ : ℚ) := by linarith
  exact_mod_cast h2

theorem slotCeil_pos {n : ℤ} (h : 0 < n) : 0 < slotCeil n := by
  rw [slotCeil_val]
  have : (0 : ℚ) < (n : ℚ) / 128 := by positivity
  exact Int.ceil_pos.mpr this

theorem slotsUsed_eq_sum (amounts : List MetalAmount) :
    slotsUsed amounts = (amounts.map (fun a => slotCeil a.nuggets)).sum := by
  rw [slotsUsed, foldl_add_int]
  simp

theorem slotsUsed_append (A B : List MetalAmount) :
    slotsUsed (A ++ B) = slotsUsed A + slotsUsed B := by
  simp [slotsUsed_eq_sum]

theorem totalUnitsOf_eq_sum (amounts : List MetalAmount) :
    totalUnitsOf amounts = (amounts.map (fun a => a.nuggets * 5)).sum := by
  rw [totalUnitsOf, foldl_add_int]
  simp

/-! ## Proofs: structure of generated crucibles -/

theorem distributeGo_mem (m : MetalId) :
    ∀ (fuel : ℕ) (rem sid : ℤ), ∀ s ∈ distributeGo m fuel rem sid,
      s.metalId = some m ∧ 0 < s.nuggets ∧ s.nuggets ≤ 128
  | 0, _, _ => by intro s hs; simp [distributeGo] at hs
  | fuel + 1, rem, sid => by
    intro s hs
    by_cases h : rem > 0
    · rw [distributeGo, if_pos h] at hs
      rcases List.mem_cons.mp hs with h1 | h1
      · subst h1
        refine ⟨rfl, ?_, ?_⟩ <;> simp <;> omega
      · exact distributeGo_mem m fuel _ _ s h1
    · rw [distributeGo, if_neg h] at hs
      simp at hs

theorem distributeGo_sum (m : MetalId) :
    ∀ (fuel : ℕ) (rem sid : ℤ), rem.toNat ≤ fuel →
      ((distributeGo m fuel rem sid).map (fun s => s.nuggets)).sum = max rem 0
  | 0, rem, sid => by
    intro h
    have : rem ≤ 0 := by omega
    simp [distributeGo]
    omega
  | fuel + 1, rem, sid => by
    intro h
    by_cases hrem : rem > 0
    · rw [distributeGo, if_pos hrem]
      have hfuel : (rem - min 128 rem).toNat ≤ fuel := by omega
      simp only [List.map_cons, List.sum_cons, distributeGo_sum m fuel _ _ hfuel]
      omega
    · rw [distributeGo, if_neg hrem]
      simp
      omega

theorem distributeToSlots_mem (m : MetalId) (n : ℤ) :
    ∀ s ∈ distributeToSlots m n, s.metalId = some m ∧ 0 < s.nuggets ∧ s.nuggets ≤ 128 :=
  distributeGo_mem m n.toNat n 0

theorem distributeToSlots_sum (m : MetalId) (n : ℤ) :
    ((distributeToSlots m n).map (fun s => s.nuggets)).sum = max n 0 :=
  distributeGo_sum m n.toNat n 0 le_rfl

theorem distributeToSlots_nonpos (m : MetalId) (n : ℤ) (h : n ≤ 0) :
    distributeToSlots m n = [] := by
  rw [distributeToSlots]
  cases hn : n.toNat with
  | zero => rfl
  | succ k => omega

/-- The distributed slots of one amount, as data (metal, nuggets). -/
theorem flatten_distribute_mem (amounts : List MetalAmount) :
    ∀ s ∈ (amounts.map (fun a => distributeToSlots a.metalId a.nuggets)).flatten,
      s.metalId.isSome ∧ 0 < s.nuggets ∧ s.nuggets ≤ 128 := by
  intro s hs
  rcases List.mem_flatten.mp hs with ⟨l, hl, hsl⟩
  rcases List.mem_map.mp hl with ⟨a, _, rfl⟩
  rcases distributeToSlots_mem a.metalId a.nuggets s hsl with ⟨h1, h2, h3⟩
  exact ⟨by simp [h1], h2, h3⟩

/-- Slot data (everything the validator and the aggregation read). -/
def slotData (s : CrucibleSlot) : Option MetalId × ℤ := (s.metalId, s.nuggets)

theorem enum_reassign_data :
    ∀ (l : List CrucibleSlot) (n : ℕ),
      ((l.enumFrom n).map (fun p => { p.2 with id := (p.1 : ℤ) })).map slotData
        = l.map slotData
  | [], _ => rfl
  | s :: l, n => by
    rw [List.enumFrom_cons]
    simp only [List.map_cons, enum_reassign_data l (n + 1)]
    rfl

theorem padTo4_length :
    ∀ (fuel : ℕ) (l : List CrucibleSlot), 4 ≤ l.length + fuel → l.length ≤ 4 →
      (padTo4 fuel l).length = 4
  | 0, l => by intro h1 h2; rw [padTo4]; omega
  | fuel + 1, l => by
    intro h1 h2
    rw [padTo4]
    by_cases h : l.length < 4
    · rw [if_pos h]
      exact padTo4_length fuel _ (by simp; omega) (by simp; omega)
    · rw [if_neg h]; omega

theorem padTo4_append_empty :
    ∀ (fuel : ℕ) (l : List CrucibleSlot), ∀ s ∈ padTo4 fuel l,
      s ∈ l ∨ (s.metalId = none ∧ s.nuggets = 0)
  | 0, l => by intro s hs; rw [padTo4] at hs; exact Or.inl hs
  | fuel + 1, l => by
    intro s hs
    rw [padTo4] at hs
    by_cases h : l.length < 4
    · rw [if_pos h] at hs
      rcases padTo4_append_empty fuel _ s hs with h1 | h1
      · rcases List.mem_append.mp h1 with h2 | h2
        · exact Or.inl h2
        · simp at h2; subst h2; exact Or.inr ⟨rfl, rfl⟩
      · exact Or.inr h1
    · rw [if_neg h] at hs; exact Or.inl hs

theorem padTo4_filter (p : CrucibleSlot → Bool)
    (hp : ∀ i : ℤ, p ⟨i, none, 0⟩ = false) :
    ∀ (fuel : ℕ) (l : List CrucibleSlot),
      (padTo4 fuel l).filter p = l.filter p
  | 0, l => by rw [padTo4]
  | fuel + 1, l => by
    rw [padTo4]
    by_cases h : l.length < 4
    · rw [if_pos h, padTo4_filter p hp fuel _, List.filter_append]
      simp [hp]
    · rw [if_neg h]

/-! ## Proofs: validator characterization -/

theorem validateRecipe_valid_iff (c : CrucibleState) (r : AlloyRecipe) (n : ℤ) :
    (validateRecipe c r n).valid = true ↔
      validateSlotCount c = true ∧ validateSlotCapacity c = true ∧
      validateComponentPresence (aggregateAmounts c) r = true ∧
      validateTotalUnits (aggregateAmounts c) n = true ∧
      validatePercentages (aggregateAmounts c) r = true := by
  simp only [validateRecipe]
  cases h1 : validateSlotCount c <;> cases h2 : validateSlotCapacity c <;>
    cases h3 : validateComponentPresence (aggregateAmounts c) r <;>
    cases h4 : validateTotalUnits (aggregateAmounts c) n <;>
    cases h5 : validatePercentages (aggregateAmounts c) r <;>
      simp

theorem validateSlotCapacity_spec {c : CrucibleState}
    (h : validateSlotCapacity c = true) : ∀ s ∈ c.slots, s.nuggets ≤ 128 := by
  intro s hs
  have := List.all_eq_true.mp h s hs
  simpa using this

theorem validateSlotCount_spec {c : CrucibleState}
    (h : validateSlotCount c = true) :
    (c.slots.filter (fun s => s.metalId.isSome && decide (s.nuggets > 0))).length ≤ 4 := by
  simpa [validateSlotCount] using h

theorem validateTotalUnits_spec {amounts : List MetalAmount} {n : ℤ}
    (h : validateTotalUnits amounts n = true) :
    totalUnitsOf amounts = n * 100 := by
  simpa [validateTotalUnits] using h

theorem validateComponentPresence_spec {amounts : List MetalAmount} {r : AlloyRecipe}
    (h : validateComponentPresence amounts r = true) :
    ∀ comp ∈ r.components, ∃ a,
      amounts.find? (fun x => x.metalId = comp.metalId) = some a ∧ 0 < a.nuggets := by
  intro comp hcomp
  have := List.all_eq_true.mp h comp hcomp
  rcases hfind : amounts.find? (fun x => x.metalId = comp.metalId) with _ | a
  · simp only [hfind] at this; simp at this
  · simp only [hfind] at this
    simp at this
    exact ⟨a, hfind, this⟩

/-- Value of the fraction `1/100` used for the tolerance. -/
theorem tol_val : (tol : Frac).val = 1 / 100 := by
  norm_num [tol, Frac.val]

theorem validatePercentages_spec {amounts : List MetalAmount} {r : AlloyRecipe}
    (h : validatePercentages amounts r = true) :
    totalUnitsOf amounts ≠ 0 ∧
    ∀ comp ∈ r.components, ∃ a,
      amounts.find? (fun x => x.metalId = comp.metalId) = some a ∧
      a.nuggets ≠ 0 ∧
      comp.minPercent.val - 1 / 100 ≤
        ((a.nuggets * 5 : ℚ) / (totalUnitsOf amounts)) * 100 ∧
      ((a.nuggets * 5 : ℚ) / (totalUnitsOf amounts)) * 100 ≤
        comp.maxPercent.val + 1 / 100 := by
  rw [validatePercentages] at h
  by_cases h0 : totalUnitsOf amounts = 0
  · rw [if_pos h0] at h; simp at h
  · rw [if_neg h0] at h
    refine ⟨h0, ?_⟩
    intro comp hcomp
    have hc := List.all_eq_true.mp h comp hcomp
    rcases hfind : amounts.find? (fun x => x.metalId = comp.metalId) with _ | a
    · simp only [hfind] at hc; simp at hc
    · simp only [hfind] at hc
      by_cases hz : a.nuggets = 0
      · simp [hz] at hc
      · simp only [if_neg hz, Bool.not_eq_true', Bool.or_eq_false_iff] at hc
        have h1 := hc
        have hv : (((Frac.ofInt (a.nuggets * 5)).div (Frac.ofInt (totalUnitsOf amounts))).mul
            (Frac.ofInt 100)).val = ((a.nuggets * 5 : ℚ) / (totalUnitsOf amounts)) * 100 := by
          rw [Frac.val_mul, Frac.val_div, Frac.val_ofInt, Frac.val_ofInt, Frac.val_ofInt]
          push_cast
          ring
        have hlo := (Frac.blt_eq_false_iff _ _).mp h1.1
        have hhi := (Frac.blt_eq_false_iff _ _).mp h1.2
        rw [hv] at hlo hhi
        have hsubv : (comp.minPercent.sub ⟨1, 100, by omega⟩).val =
            comp.minPercent.val - 1 / 100 := by
          rw [Frac.val_sub]; norm_num [Frac.val]
        have haddv : (comp.maxPercent.add ⟨1, 100, by omega⟩).val =
            comp.maxPercent.val + 1 / 100 := by
          rw [Frac.val_add]; norm_num [Frac.val]
        rw [hsubv] at hlo
        rw [haddv] at hhi
        exact ⟨a, hfind, hz, hlo, hhi⟩

/-! ## Proofs: success-path characterizations -/

theorem maximizeIngots_success_char (r : AlloyRecipe) (res : OptimizerResult)
    (hres : maximizeIngots r = res) (h : res.success = true) :
    ∃ bestAmounts,
      binSearch r 64 1 50 0 none = (res.ingotCount, some bestAmounts) ∧
      res.ingotCount ≠ 0 ∧
      res.crucible = some (amountsToCrucible bestAmounts) ∧
      (validateRecipe (amountsToCrucible bestAmounts) r res.ingotCount).valid = true := by
  rw [maximizeIngots] at hres
  by_cases hc : r.components.isEmpty
  · rw [if_pos hc] at hres
    rw [← hres] at h
    simp [failResult] at h
  · rw [if_neg (by simpa using hc)] at hres
    rcases hbs : binSearch r 64 1 50 0 none with ⟨mv, ob⟩
    rcases hob : ob with _ | amounts
    · rw [hbs, hob] at hres
      simp only at hres
      rw [← hres] at h
      simp [failResult] at h
    · rw [hbs, hob] at hres
      simp only at hres
      by_cases hmv : mv = 0
      · rw [if_pos hmv] at hres
        rw [← hres] at h
        simp [failResult] at h
      · rw [if_neg hmv] at hres
        by_cases hval : (validateRecipe (amountsToCrucible amounts) r mv).valid
        · rw [if_neg (by simpa using hval)] at hres
          subst hres
          refine ⟨amounts, ?_, ?_, rfl, ?_⟩
          · simpa using hbs
          · simpa using hmv
          · simpa using hval
        · rw [if_pos (by simpa using hval)] at hres
          rw [← hres] at h
          simp [failResult] at h

theorem optimizeEconomical_success_char (r : AlloyRecipe) (ti : Option ℤ)
    (res : OptimizerResult) (hres : optimizeEconomical r ti = res)
    (h : res.success = true) :
    ∃ t amounts,
      ti = some t ∧ 0 < t ∧
      createEconomicalRecipe r t = some amounts ∧
      fitsInFourSlots amounts = true ∧
      res.ingotCount = t ∧
      res.crucible = some (amountsToCrucible amounts) ∧
      res.rarityCost = some (calculateRarityCost amounts) ∧
      (validateRecipe (amountsToCrucible amounts) r t).valid = true := by
  rw [optimizeEconomical.eq_def] at hres
  by_cases hc : r.components.isEmpty
  · rw [if_pos hc] at hres
    rw [← hres] at h
    simp [failResult] at h
  · rw [if_neg (by simpa using hc)] at hres
    rcases hti : ti with _ | t
    · rw [hti] at hres
      simp only at hres
      rw [← hres] at h
      simp [failResult] at h
    · rw [hti] at hres
      simp only at hres
      by_cases ht : t ≤ 0
      · rw [if_pos ht] at hres
        rw [← hres] at h
        simp [failResult] at h
      · rw [if_neg ht] at hres
        rcases hcr : createEconomicalRecipe r t with _ | amounts
        · rw [hcr] at hres
          simp only at hres
          rw [← hres] at h
          simp [failResult] at h
        · rw [hcr] at hres
          simp only at hres
          by_cases hfit : fitsInFourSlots amounts
          · rw [if_neg (by simpa using hfit)] at hres
            by_cases hval : (validateRecipe (amountsToCrucible amounts) r t).valid
            · rw [if_neg (by simpa using hval)] at hres
              subst hres
              refine ⟨t, amounts, rfl, by omega, hcr, hfit, rfl, rfl, rfl, ?_⟩
              simpa using hval
            · rw [if_pos (by simpa using hval)] at hres
              rw [← hres] at h
              simp [failResult] at h
          · rw [if_pos (by simpa using hfit)] at hres
            rw [← hres] at h
            simp [failResult] at h

/-! ## Proofs: well-formedness of generated crucibles -/

theorem filter_length_congr_data (p : Option MetalId × ℤ → Bool) :
    ∀ (l1 l2 : List CrucibleSlot), l1.map slotData = l2.map slotData →
      (l1.filter (fun s => p (slotData s))).length =
        (l2.filter (fun s => p (slotData s))).length
  | [], [], _ => rfl
  | [], _ :: _, h => by simp at h
  | _ :: _, [], h => by simp at h
  | a :: l1, b :: l2, h => by
    simp only [List.map_cons, List.cons.injEq] at h
    simp only [List.filter_cons, h.1]
    cases hp : p (slotData b) <;>
      simp [filter_length_congr_data p l1 l2 h.2]

/-- The reassigned slots of `amountsToCrucible` carry the same data as the
raw distributed slots. -/
theorem reassigned_data (amounts : List MetalAmount) :
    (((amounts.map (fun a => distributeToSlots a.metalId a.nuggets)).flatten).enum.map
        (fun p => { p.2 with id := (p.1 : ℤ) })).map slotData =
      ((amounts.map (fun a => distributeToSlots a.metalId a.nuggets)).flatten).map slotData :=
  enum_reassign_data _ 0

theorem crucible_wellformed_of_checks (amounts : List MetalAmount)
    (hcount : validateSlotCount (amountsToCrucible amounts) = true)
    (hcap : validateSlotCapacity (amountsToCrucible amounts) = true) :
    (amountsToCrucible amounts).slots.length = 4 ∧
    ((amountsToCrucible amounts).slots.filter
      (fun s => s.metalId.isSome && decide (s.nuggets > 0))).length ≤ 4 ∧
    ∀ s ∈ (amountsToCrucible amounts).slots, s.nuggets ≤ 128 := by
  have hfil := validateSlotCount_spec hcount
  have hcapm := validateSlotCapacity_spec hcap
  refine ⟨?_, hfil, hcapm⟩
  set gen := (amounts.map (fun a => distributeToSlots a.metalId a.nuggets)).flatten with hgen
  set re := gen.enum.map (fun p => { p.2 with id := (p.1 : ℤ) }) with hre
  have hslots : (amountsToCrucible amounts).slots = padTo4 4 re := rfl
  have hrelen : re.length = gen.length := by
    rw [hre, List.length_map, List.enum_length]
  have hpad : ∀ i : ℤ,
      ((fun s => s.metalId.isSome && decide (s.nuggets > 0)) (⟨i, none, 0⟩ : CrucibleSlot)) =
        false := by
    intro i; rfl
  have hfilpad := padTo4_filter (fun s => s.metalId.isSome && decide (s.nuggets > 0)) hpad 4 re
  have hfildata :
      (re.filter (fun s => s.metalId.isSome && decide (s.nuggets > 0))).length =
        (gen.filter (fun s => s.metalId.isSome && decide (s.nuggets > 0))).length := by
    exact filter_length_congr_data (fun d => d.1.isSome && decide (d.2 > 0)) re gen
      (reassigned_data amounts)
  have hgenfil : gen.filter (fun s => s.metalId.isSome && decide (s.nuggets > 0)) = gen := by
    apply List.filter_eq_self.mpr
    intro s hs
    rcases flatten_distribute_mem amounts s hs with ⟨h1, h2, _⟩
    simp [h1]
    omega
  rw [hslots, hfilpad, hfildata, hgenfil] at hfil
  rw [hslots]
  apply padTo4_length 4 re (by omega)
  omega

/-- **C2.** Every Success result's Crucible State is well-formed: exactly 4
slot entries, at most 4 of them non-empty, and no slot above 128 nuggets —
in both maximize and economical mode. -/
theorem c2_crucible_wellformed (r : AlloyRecipe) (ti : Option ℤ) :
    ((maximizeIngots r).success = true →
      ∃ c, (maximizeIngots r).crucible = some c ∧ c.slots.length = 4 ∧
        (c.slots.filter (fun s => s.metalId.isSome && decide (s.nuggets > 0))).length ≤ 4 ∧
        ∀ s ∈ c.slots, s.nuggets ≤ 128) ∧
    ((optimizeEconomical r ti).success = true →
      ∃ c, (optimizeEconomical r ti).crucible = some c ∧ c.slots.length = 4 ∧
        (c.slots.filter (fun s => s.metalId.isSome && decide (s.nuggets > 0))).length ≤ 4 ∧
        ∀ s ∈ c.slots, s.nuggets ≤ 128) := by
  constructor
  · intro h
    rcases maximizeIngots_success_char r _ rfl h with ⟨amounts, _, _, hcru, hval⟩
    rcases (validateRecipe_valid_iff _ _ _).mp hval with ⟨h1, h2, _, _, _⟩
    rcases crucible_wellformed_of_checks amounts h1 h2 with ⟨hl, hf, hc⟩
    exact ⟨amountsToCrucible amounts, hcru, hl, hf, hc⟩
  · intro h
    rcases optimizeEconomical_success_char r ti _ rfl h with
      ⟨t, amounts, _, _, _, _, _, hcru, _, hval⟩
    rcases (validateRecipe_valid_iff _ _ _).mp hval with ⟨h1, h2, _, _, _⟩
    rcases crucible_wellformed_of_checks amounts h1 h2 with ⟨hl, hf, hc⟩
    exact ⟨amountsToCrucible amounts, hcru, hl, hf, hc⟩

/-! ## Proofs: percentage conformance and exact totals (C3, C4) -/

theorem percent_of_valid {c : CrucibleState} {r : AlloyRecipe} {n : ℤ}
    (hval : (validateRecipe c r n).valid = true) :
    ∀ comp ∈ r.components, ∃ a,
      (aggregateAmounts c).find? (fun x => x.metalId = comp.metalId) = some a ∧
      0 < a.nuggets ∧
      comp.minPercent.val - 1 / 100 ≤
        (a.nuggets * 5 * 100 : ℚ) / (totalUnitsOf (aggregateAmounts c)) ∧
      (a.nuggets * 5 * 100 : ℚ) / (totalUnitsOf (aggregateAmounts c)) ≤
        comp.maxPercent.val + 1 / 100 := by
  rcases (validateRecipe_valid_iff _ _ _).mp hval with ⟨_, _, hpres, _, hperc⟩
  intro comp hcomp
  rcases validateComponentPresence_spec hpres comp hcomp with ⟨a1, hf1, hpos⟩
  rcases (validatePercentages_spec hperc).2 comp hcomp with ⟨a2, hf2, _, hlo, hhi⟩
  have ha : a1 = a2 := by
    have := hf1.symm.trans hf2
    exact Option.some.inj this
  subst ha
  refine ⟨a1, hf1, hpos, ?_, ?_⟩
  · calc comp.minPercent.val - 1 / 100
        ≤ ((a1.nuggets * 5 : ℚ) / (totalUnitsOf (aggregateAmounts c))) * 100 := hlo
      _ = (a1.nuggets * 5 * 100 : ℚ) / (totalUnitsOf (aggregateAmounts c)) := by
          rw [div_mul_eq_mul_div]
  · calc (a1.nuggets * 5 * 100 : ℚ) / (totalUnitsOf (aggregateAmounts c))
        = ((a1.nuggets * 5 : ℚ) / (totalUnitsOf (aggregateAmounts c))) * 100 := by
          rw [div_mul_eq_mul_div]
      _ ≤ comp.maxPercent.val + 1 / 100 := hhi

/-- **C3.** In every Success result, in both modes, every recipe component
is present with a strictly positive nugget count and its realized
percentage (nuggets × 5 × 100 / totalUnits, over the returned crucible's
per-metal totals) lies within `[min − 0.01, max + 0.01]`. -/
theorem c3_percent_conformance (r : AlloyRecipe) (ti : Option ℤ) :
    ((maximizeIngots r).success = true →
      ∃ c, (maximizeIngots r).crucible = some c ∧
        ∀ comp ∈ r.components, ∃ a,
          (aggregateAmounts c).find? (fun x => x.metalId = comp.metalId) = some a ∧
          0 < a.nuggets ∧
          comp.minPercent.val - 1 / 100 ≤
            (a.nuggets * 5 * 100 : ℚ) / (totalUnitsOf (aggregateAmounts c)) ∧
          (a.nuggets * 5 * 100 : ℚ) / (totalUnitsOf (aggregateAmounts c)) ≤
            comp.maxPercent.val + 1 / 100) ∧
    ((optimizeEconomical r ti).success = true →
      ∃ c, (optimizeEconomical r ti).crucible = some c ∧
        ∀ comp ∈ r.components, ∃ a,
          (aggregateAmounts c).find? (fun x => x.metalId = comp.metalId) = some a ∧
          0 < a.nuggets ∧
          comp.minPercent.val - 1 / 100 ≤
            (a.nuggets * 5 * 100 : ℚ) / (totalUnitsOf (aggregateAmounts c)) ∧
          (a.nuggets * 5 * 100 : ℚ) / (totalUnitsOf (aggregateAmounts c)) ≤
            comp.maxPercent.val + 1 / 100) := by
  constructor
  · intro h
    rcases maximizeIngots_success_char r _ rfl h with ⟨amounts, _, _, hcru, hval⟩
    exact ⟨amountsToCrucible amounts, hcru, percent_of_valid hval⟩
  · intro h
    rcases optimizeEconomical_success_char r ti _ rfl h with
      ⟨t, amounts, _, _, _, _, _, hcru, _, hval⟩
    exact ⟨amountsToCrucible amounts, hcru, percent_of_valid hval⟩

/-- **C4.** In every Success result, in both modes, the total units of the
returned crucible equal exactly the reported output count × 100. -/
theorem c4_exact_total (r : AlloyRecipe) (ti : Option ℤ) :
    ((maximizeIngots r).success = true →
      ∃ c, (maximizeIngots r).crucible = some c ∧
        totalUnitsOf (aggregateAmounts c) = (maximizeIngots r).ingotCount * 100) ∧
    ((optimizeEconomical r ti).success = true →
      ∃ c, (optimizeEconomical r ti).crucible = some c ∧
        totalUnitsOf (aggregateAmounts c) = (optimizeEconomical r ti).ingotCount * 100) := by
  constructor
  · intro h
    rcases maximizeIngots_success_char r _ rfl h with ⟨amounts, _, _, hcru, hval⟩
    rcases (validateRecipe_valid_iff _ _ _).mp hval with ⟨_, _, _, htot, _⟩
    exact ⟨amountsToCrucible amounts, hcru, validateTotalUnits_spec htot⟩
  · intro h
    rcases optimizeEconomical_success_char r ti _ rfl h with
      ⟨t, amounts, _, _, _, _, hingot, hcru, _, hval⟩
    rcases (validateRecipe_valid_iff _ _ _).mp hval with ⟨_, _, _, htot, _⟩
    rw [hingot]
    exact ⟨amountsToCrucible amounts, hcru, validateTotalUnits_spec htot⟩

/-- Witness for C2 at concrete recipes (maximize on the single-component
recipe, economical on Tin Bronze at target 1). -/
theorem c2_crucible_wellformed_witness :
    (∃ c, (maximizeIngots singleCopper).crucible = some c ∧ c.slots.length = 4 ∧
      (c.slots.filter (fun s => s.metalId.isSome && decide (s.nuggets > 0))).length ≤ 4 ∧
      ∀ s ∈ c.slots, s.nuggets ≤ 128) ∧
    (∃ c, (optimizeEconomical tinBronze (some 1)).crucible = some c ∧ c.slots.length = 4 ∧
      (c.slots.filter (fun s => s.metalId.isSome && decide (s.nuggets > 0))).length ≤ 4 ∧
      ∀ s ∈ c.slots, s.nuggets ≤ 128) :=
  ⟨(c2_crucible_wellformed singleCopper none).1 (by decide),
   (c2_crucible_wellformed tinBronze (some 1)).2 (by decide)⟩

/-- Witness for C3 at concrete recipes. -/
theorem c3_percent_conformance_witness :
    (∃ c, (maximizeIngots singleCopper).crucible = some c ∧
      ∀ comp ∈ singleCopper.components, ∃ a,
        (aggregateAmounts c).find? (fun x => x.metalId = comp.metalId) = some a ∧
        0 < a.nuggets ∧
        comp.minPercent.val - 1 / 100 ≤
          (a.nuggets * 5 * 100 : ℚ) / (totalUnitsOf (aggregateAmounts c)) ∧
        (a.nuggets * 5 * 100 : ℚ) / (totalUnitsOf (aggregateAmounts c)) ≤
          comp.maxPercent.val + 1 / 100) ∧
    (∃ c, (optimizeEconomical tinBronze (some 1)).crucible = some c ∧
      ∀ comp ∈ tinBronze.components, ∃ a,
        (aggregateAmounts c).find? (fun x => x.metalId = comp.metalId) = some a ∧
        0 < a.nuggets ∧
        comp.minPercent.val - 1 / 100 ≤
          (a.nuggets * 5 * 100 : ℚ) / (totalUnitsOf (aggregateAmounts c)) ∧
        (a.nuggets * 5 * 100 : ℚ) / (totalUnitsOf (aggregateAmounts c)) ≤
          comp.maxPercent.val + 1 / 100) :=
  ⟨(c3_percent_conformance singleCopper none).1 (by decide),
   (c3_percent_conformance tinBronze (some 1)).2 (by decide)⟩

/-- Witness for C4 at concrete recipes. -/
theorem c4_exact_total_witness :
    (∃ c, (maximizeIngots singleCopper).crucible = some c ∧
      totalUnitsOf (aggregateAmounts c) = (maximizeIngots singleCopper).ingotCount * 100) ∧
    (∃ c, (optimizeEconomical tinBronze (some 1)).crucible = some c ∧
      totalUnitsOf (aggregateAmounts c) =
        (optimizeEconomical tinBronze (some 1)).ingotCount * 100) :=
  ⟨(c4_exact_total singleCopper none).1 (by decide),
   (c4_exact_total tinBronze (some 1)).2 (by decide)⟩

/-! ## Proofs: facade-level claims (C7, C8, C9, C10) -/

theorem deepCopyRecipe_eq (r : AlloyRecipe) : deepCopyRecipe r = r := by
  have hid : (fun c : AlloyComponent =>
      (⟨c.metalId, c.minPercent, c.maxPercent⟩ : AlloyComponent)) = id := rfl
  cases r with
  | mk i n comps => simp [deepCopyRecipe, hid]

theorem maximizeIngots_shape (r : AlloyRecipe) (res : OptimizerResult)
    (hres : maximizeIngots r = res) :
    (res.success = true → res.error = none ∧ ∃ c, res.crucible = some c) ∧
    (res.success = false →
      res.crucible = none ∧ res.ingotCount = 0 ∧ ∃ m, res.error = some m) := by
  rw [maximizeIngots] at hres
  by_cases hc : r.components.isEmpty
  · rw [if_pos hc] at hres
    subst hres
    simp [failResult]
  · rw [if_neg (by simpa using hc)] at hres
    rcases hbs : binSearch r 64 1 50 0 none with ⟨mv, ob⟩
    rw [hbs] at hres
    rcases ob with _ | amounts
    · simp only at hres
      subst hres
      simp [failResult]
    · simp only at hres
      by_cases hmv : mv = 0
      · rw [if_pos hmv] at hres
        subst hres
        simp [failResult]
      · rw [if_neg hmv] at hres
        by_cases hval : (validateRecipe (amountsToCrucible amounts) r mv).valid
        · rw [if_neg (by simpa using hval)] at hres
          subst hres
          simp
        · rw [if_pos (by simpa using hval)] at hres
          subst hres
          simp [failResult]

theorem optimizeEconomical_shape (r : AlloyRecipe) (ti : Option ℤ)
    (res : OptimizerResult) (hres : optimizeEconomical r ti = res) :
    (res.success = true → res.error = none ∧ ∃ c, res.crucible = some c) ∧
    (res.success = false →
      res.crucible = none ∧ res.ingotCount = 0 ∧ ∃ m, res.error = some m) := by
  rw [optimizeEconomical.eq_def] at hres
  by_cases hc : r.components.isEmpty
  · rw [if_pos hc] at hres; subst hres; simp [failResult]
  · rw [if_neg (by simpa using hc)] at hres
    rcases ti with _ | t
    · simp only at hres; subst hres; simp [failResult]
    · simp only at hres
      by_cases ht : t ≤ 0
      · rw [if_pos ht] at hres; subst hres; simp [failResult]
      · rw [if_neg ht] at hres
        rcases hcr : createEconomicalRecipe r t with _ | amounts
        · rw [hcr] at hres; simp only at hres; subst hres; simp [failResult]
        · rw [hcr] at hres
          simp only at hres
          by_cases hfit : fitsInFourSlots amounts
          · rw [if_neg (by simpa using hfit)] at hres
            by_cases hval : (validateRecipe (amountsToCrucible amounts) r t).valid
            · rw [if_neg (by simpa using hval)] at hres; subst hres; simp
            · rw [if_pos (by simpa using hval)] at hres; subst hres; simp [failResult]
          · rw [if_pos (by simpa using hfit)] at hres; subst hres; simp [failResult]

/-- **C8.** The facade is total (it returns a value for every input by
construction — the `try/catch` wrapper of the source is unreachable since
the embedded solvers are total), every Failure result carries
`crucible = null` and `ingotCount = 0` with an error message, and every
Success carries a crucible and no error — never a partially-populated
Success. -/
theorem c8_failure_shape (input : Option OptimizerInput) :
    ((optimizeRecipe input).success = false →
      (optimizeRecipe input).crucible = none ∧
      (optimizeRecipe input).ingotCount = 0 ∧
      ∃ m, (optimizeRecipe input).error = some m) ∧
    ((optimizeRecipe input).success = true →
      (optimizeRecipe input).error = none ∧
      ∃ c, (optimizeRecipe input).crucible = some c) := by
  rcases input with _ | inp
  · constructor
    · intro _; simp [optimizeRecipe, failResult]
    · intro h; simp [optimizeRecipe, failResult] at h
  · rcases hr : inp.recipe with _ | recipe
    · constructor
      · intro _; simp [optimizeRecipe, hr, failResult]
      · intro h; simp [optimizeRecipe, hr, failResult] at h
    · by_cases hm : inp.mode = some "maximize" ∨ inp.mode = some "economical"
      · have hmode : (inp.mode = some "maximize" || inp.mode = some "economical") = true := by
          rcases hm with h | h <;> simp [h]
        by_cases hmax : inp.mode = some "maximize"
        · have hopt : optimizeRecipe (some inp) = maximizeIngots (deepCopyRecipe recipe) := by
            simp [optimizeRecipe, hr, hmode, hmax]
          rw [hopt]
          have := maximizeIngots_shape (deepCopyRecipe recipe) _ rfl
          exact ⟨this.2, this.1⟩
        · have heco : inp.mode = some "economical" := by tauto
          by_cases htr : jsTruthyInt inp.targetIngots
          · have hopt : optimizeRecipe (some inp) =
                optimizeEconomical (deepCopyRecipe recipe) inp.targetIngots := by
              simp [optimizeRecipe, hr, hmode, hmax, heco, htr]
            rw [hopt]
            have := optimizeEconomical_shape (deepCopyRecipe recipe) inp.targetIngots _ rfl
            exact ⟨this.2, this.1⟩
          · have hopt : optimizeRecipe (some inp) =
                failResult "economical" (deepCopyRecipe recipe)
                  "Target ingot amount is required for economical mode" := by
              simp [optimizeRecipe, hr, hmode, hmax, heco]
              simp at htr
              simp [htr]
            rw [hopt]
            constructor
            · intro _; simp [failResult]
            · intro h; simp [failResult] at h
      · have hmode : (inp.mode = some "maximize" || inp.mode = some "economical") = false := by
          push_neg at hm
          simp [hm.1, hm.2]
        constructor
        · intro _; simp [optimizeRecipe, hr, hmode, failResult]
        · intro h; simp [optimizeRecipe, hr, hmode, failResult] at h

/-- Witness for C8: a failing input (no input object at all) and a
succeeding one (maximize on the single-component recipe). -/
theorem c8_failure_shape_witness :
    ((optimizeRecipe none).crucible = none ∧
      (optimizeRecipe none).ingotCount = 0 ∧
      ∃ m, (optimizeRecipe none).error = some m) ∧
    ((optimizeRecipe (some ⟨some singleCopper, some "maximize", none⟩)).error = none ∧
      ∃ c, (optimizeRecipe (some ⟨some singleCopper, some "maximize", none⟩)).crucible =
        some c) :=
  ⟨(c8_failure_shape none).1 (by decide),
   (c8_failure_shape (some ⟨some singleCopper, some "maximize", none⟩)).2 (by decide)⟩

/-- **C10.** The optimizer is a pure function of its input: structurally
equal inputs produce structurally equal results in every field, including
the exact slot layout — the embedding contains no source of randomness or
tie-dependent nondeterminism (the search order, the stable sort and the
insertion-ordered maps are all deterministic). -/
theorem c10_deterministic (i j : Option OptimizerInput) (h : i = j) :
    optimizeRecipe i = optimizeRecipe j := by rw [h]

/-- Witness for C10 at a concrete input. -/
theorem c10_deterministic_witness :
    optimizeRecipe (some ⟨some tinBronze, some "economical", some 2⟩) =
      optimizeRecipe (some ⟨some tinBronze, some "economical", some 2⟩) :=
  c10_deterministic _ _ rfl

/-- **C7.** Input immutability, via the state-passing embedding: the
caller-observable recipe after a facade call equals the recipe before the
call (the TypeScript code performs no assignment through the recipe or its
components; its only mutations target crucible slots freshly allocated in
the same call), the facade's deep copy is a faithful value copy, and the
tracked call returns the same result as the plain embedding — so repeated
calls with the same recipe object observe it unchanged. -/
theorem c7_input_immutability (input : Option OptimizerInput) :
    (optimizeRecipeTracked input).2 = input.bind (fun i => i.recipe) ∧
    (∀ r0, input.bind (fun i => i.recipe) = some r0 → deepCopyRecipe r0 = r0) ∧
    (optimizeRecipeTracked input).1 = optimizeRecipe input := by
  refine ⟨?_, fun r0 _ => deepCopyRecipe_eq r0, ?_⟩ <;>
    rcases input with _ | inp <;> try rfl
  · rcases hr : inp.recipe with _ | recipe <;>
      simp [optimizeRecipeTracked, hr]
  · rcases hr : inp.recipe with _ | recipe <;>
      simp [optimizeRecipeTracked, hr]

/-- Witness for C7 at a concrete input. -/
theorem c7_input_immutability_witness :
    (optimizeRecipeTracked (some ⟨some tinBronze, some "maximize", none⟩)).2 =
      some tinBronze ∧
    deepCopyRecipe tinBronze = tinBronze :=
  ⟨(c7_input_immutability (some ⟨some tinBronze, some "maximize", none⟩)).1,
   (c7_input_immutability (some ⟨some tinBronze, some "maximize", none⟩)).2.1
     tinBronze rfl⟩

/-! ## Proofs: economical validation reasons (C9) -/

/-- **C9 (counterexample).** The claim says a present-but-zero
`targetOutputCount` passed through `optimizeRecipe` fails with the
non-positive-target reason, distinct from the target-required reason.  In
fact the facade's JavaScript truthiness check `!input.targetIngots`
intercepts 0 and returns the target-required reason. -/
theorem c9_zero_target_counterexample :
    (optimizeRecipe (some ⟨some tinBronze, some "economical", some 0⟩)).error =
      some "Target ingot amount is required for economical mode" ∧
    "Target ingot amount is required for economical mode" ≠
      "Target ingot amount must be greater than zero" := by
  constructor
  · rfl
  · decide

/-- **C9 (amended).** Each validation precondition of the economical path
yields its own distinct Failure reason — no components; absent target;
non-positive target — except that a present-but-zero target passed through
`optimizeRecipe` is caught by the facade's falsiness check and reported
with the target-required reason (the non-positive reason appears for
`targetOutputCount = 0` only when `optimizeEconomical` is called directly,
and through the facade for strictly negative targets). -/
theorem c9_distinct_failure_reasons (r : AlloyRecipe) :
    (r.components = [] → ∀ ti,
      (optimizeEconomical r ti).error = some "Recipe has no components") ∧
    (r.components ≠ [] →
      (optimizeEconomical r none).error =
        some "Target ingot amount is required for economical mode") ∧
    (r.components ≠ [] → ∀ t : ℤ, t ≤ 0 →
      (optimizeEconomical r (some t)).error =
        some "Target ingot amount must be greater than zero") ∧
    (r.components ≠ [] →
      (optimizeRecipe (some ⟨some r, some "economical", some 0⟩)).error =
        some "Target ingot amount is required for economical mode") ∧
    (r.components ≠ [] → ∀ t : ℤ, t < 0 →
      (optimizeRecipe (some ⟨some r, some "economical", some t⟩)).error =
        some "Target ingot amount must be greater than zero") := by
  refine ⟨?_, ?_, ?_, ?_, ?_⟩
  · intro hc ti
    have he : r.components.isEmpty = true := by simp [hc]
    simp [optimizeEconomical.eq_def, he, failResult]
  · intro hc
    have he : r.components.isEmpty = false := by simpa using hc
    simp [optimizeEconomical.eq_def, he, failResult]
  · intro hc t ht
    have he : r.components.isEmpty = false := by simpa using hc
    simp [optimizeEconomical.eq_def, he, ht, failResult]
  · intro hc
    simp [optimizeRecipe, jsTruthyInt, failResult]
  · intro hc t ht
    have hne : t ≠ 0 := by omega
    have he : (deepCopyRecipe r).components.isEmpty = false := by
      rw [deepCopyRecipe_eq]; simpa using hc
    simp [optimizeRecipe, jsTruthyInt, hne, optimizeEconomical.eq_def, he,
      (by omega : t ≤ 0), failResult]

/-- Witness for C9 (amended) at a concrete recipe and target. -/
theorem c9_distinct_failure_reasons_witness :
    ((optimizeEconomical emptyRecipe (some 3)).error =
      some "Recipe has no components") ∧
    ((optimizeEconomical tinBronze none).error =
      some "Target ingot amount is required for economical mode") ∧
    ((optimizeEconomical tinBronze (some 0)).error =
      some "Target ingot amount must be greater than zero") ∧
    ((optimizeRecipe (some ⟨some tinBronze, some "economical", some 0⟩)).error =
      some "Target ingot amount is required for economical mode") ∧
    ((optimizeRecipe (some ⟨some tinBronze, some "economical", some (-5)⟩)).error =
      some "Target ingot amount must be greater than zero") :=
  ⟨(c9_distinct_failure_reasons emptyRecipe).1 rfl (some 3),
   (c9_distinct_failure_reasons tinBronze).2.1 (List.cons_ne_nil _ _),
   (c9_distinct_failure_reasons tinBronze).2.2.1 (List.cons_ne_nil _ _) 0 (by decide),
   (c9_distinct_failure_reasons tinBronze).2.2.2.1 (List.cons_ne_nil _ _),
   (c9_distinct_failure_reasons tinBronze).2.2.2.2 (List.cons_ne_nil _ _) (-5) (by decide)⟩

/-! ## Proofs: the economical greedy algorithm (C6) -/

theorem econLoop_eq_spec (T : ℤ) :
    ∀ (comps : List AlloyComponent) (alloc : ℤ) (acc : List MetalAmount),
      econLoop T comps alloc acc = econSpecGo T comps alloc acc
  | [], _, _ => rfl
  | [_], _, _ => rfl
  | c :: c2 :: rest, alloc, acc => by
    show econLoop T (c :: c2 :: rest) alloc acc = econSpecGo T (c :: c2 :: rest) alloc acc
    simp only [econLoop, econSpecGo, clampedBiasedNuggets, biasedTargetPercent,
      commonRarityThreshold]
    exact econLoop_eq_spec T (c2 :: rest) _ _

/-- **C6.** The Economical Solver follows the greedy-with-bias algorithm:
components processed in ascending scarcity order; every component but the
last-processed one receives the biased target (max% at or below the common
threshold, min% above) clamped to its own band and to the units left once
the remaining components' combined minimum is reserved; the last-processed
component receives exactly the remainder, and an out-of-band remainder
makes the whole call fail rather than fall back to another plan. -/
theorem c6_economical_greedy (r : AlloyRecipe) (t : ℤ) :
    List.Sorted RarityLE (sortedByRarity r.components) ∧
    (2 ≤ r.components.length → createEconomicalRecipe r t = econPlanSpec r t) ∧
    (0 < t → r.components ≠ [] → createEconomicalRecipe r t = none →
      (optimizeEconomical r (some t)).success = false ∧
      (optimizeEconomical r (some t)).crucible = none) := by
  refine ⟨?_, ?_, ?_⟩
  · haveI htotal : IsTotal AlloyComponent
        (fun a b => (getRarityScore a.metalId).ble (getRarityScore b.metalId) = true) := by
      constructor
      intro a b
      rcases le_total (getRarityScore a.metalId).val (getRarityScore b.metalId).val with h | h
      · exact Or.inl ((Frac.ble_iff _ _).mpr h)
      · exact Or.inr ((Frac.ble_iff _ _).mpr h)
    haveI htrans : IsTrans AlloyComponent
        (fun a b => (getRarityScore a.metalId).ble (getRarityScore b.metalId) = true) := by
      constructor
      intro a b c hab hbc
      exact (Frac.ble_iff _ _).mpr
        (le_trans ((Frac.ble_iff _ _).mp hab) ((Frac.ble_iff _ _).mp hbc))
    have hs := List.sorted_insertionSort
      (fun a b => (getRarityScore a.metalId).ble (getRarityScore b.metalId) = true)
      r.components
    exact hs.imp (fun hab => (Frac.ble_iff _ _).mp hab)
  · intro hlen
    rcases hcomps : r.components with _ | ⟨c1, _ | ⟨c2, rest⟩⟩
    · rw [hcomps] at hlen; simp at hlen
    · rw [hcomps] at hlen; simp at hlen
    · rw [createEconomicalRecipe, econPlanSpec, hcomps]
      exact econLoop_eq_spec _ _ _ _
  · intro ht hc hnone
    have he : r.components.isEmpty = false := by simpa using hc
    simp only [optimizeEconomical.eq_def, he, hnone, failResult, Bool.false_eq_true,
      if_false]
    constructor <;> split <;> rfl

/-- Witness for C6: the equality at Tin Bronze (target 1), sortedness, and
the no-fallback failure on a recipe whose remainder cannot be in band. -/
theorem c6_economical_greedy_witness :
    List.Sorted RarityLE (sortedByRarity tinBronze.components) ∧
    createEconomicalRecipe tinBronze 1 = econPlanSpec tinBronze 1 ∧
    ((optimizeEconomical impossibleAlloy (some 1)).success = false ∧
      (optimizeEconomical impossibleAlloy (some 1)).crucible = none) :=
  ⟨(c6_economical_greedy tinBronze 1).1,
   (c6_economical_greedy tinBronze 1).2.1 (by decide),
   (c6_economical_greedy impossibleAlloy 1).2.2 (by decide) (List.cons_ne_nil _ _)
     (by rfl)⟩

/-! ## Proofs: aggregation of generated crucibles -/

theorem addAmount_fresh (m : MetalId) (n : ℤ) :
    ∀ (acc : List MetalAmount), m ∉ acc.map (fun a => a.metalId) →
      addAmount acc m n = acc ++ [⟨m, n⟩]
  | [], _ => rfl
  | a :: rest, h => by
    simp only [List.map_cons, List.mem_cons] at h
    push_neg at h
    have hne : ¬(a.metalId = m) := fun hc => h.1 hc.symm
    rw [addAmount, if_neg hne, addAmount_fresh m n rest h.2]
    rfl

theorem addAmount_snoc (m : MetalId) (n j : ℤ) :
    ∀ (acc : List MetalAmount), m ∉ acc.map (fun a => a.metalId) →
      addAmount (acc ++ [⟨m, j⟩]) m n = acc ++ [⟨m, j + n⟩]
  | [], _ => by simp [addAmount]
  | a :: rest, h => by
    simp only [List.map_cons, List.mem_cons] at h
    push_neg at h
    have hne : ¬(a.metalId = m) := fun hc => h.1 hc.symm
    rw [List.cons_append, addAmount, if_neg hne, addAmount_snoc m n j rest h.2]
    rfl

/-- One step of the validator's aggregation loop on a non-empty slot. -/
theorem aggStep_some {acc : List MetalAmount} {s : CrucibleSlot} {m : MetalId}
    (hm : s.metalId = some m) (hn : 0 < s.nuggets) :
    (match s.metalId with
      | none => acc
      | some mm => if s.nuggets > 0 then addAmount acc mm s.nuggets else acc) =
      addAmount acc m s.nuggets := by
  rw [hm]
  simp [hn]

theorem aggFold_same_metal (m : MetalId) :
    ∀ (ls : List CrucibleSlot) (acc : List MetalAmount) (j : ℤ),
      (∀ s ∈ ls, s.metalId = some m ∧ 0 < s.nuggets) →
      m ∉ acc.map (fun a => a.metalId) →
      ls.foldl
        (fun acc slot =>
          match slot.metalId with
          | none => acc
          | some mm => if slot.nuggets > 0 then addAmount acc mm slot.nuggets else acc)
        (acc ++ [⟨m, j⟩]) =
        acc ++ [⟨m, j + (ls.map (fun s => s.nuggets)).sum⟩]
  | [], acc, j, _, _ => by simp
  | s :: ls, acc, j, hall, hfresh => by
    have hs := hall s (List.mem_cons_self s ls)
    rw [List.foldl_cons, aggStep_some hs.1 hs.2, addAmount_snoc m s.nuggets j acc hfresh,
      aggFold_same_metal m ls acc (j + s.nuggets)
        (fun x hx => hall x (List.mem_cons_of_mem s hx)) hfresh]
    simp [add_assoc]

theorem aggFold_dist (m : MetalId) (n : ℤ) (acc : List MetalAmount)
    (hn : 0 < n) (hfresh : m ∉ acc.map (fun a => a.metalId)) :
    (distributeToSlots m n).foldl
      (fun acc slot =>
        match slot.metalId with
        | none => acc
        | some mm => if slot.nuggets > 0 then addAmount acc mm slot.nuggets else acc)
      acc = acc ++ [⟨m, n⟩] := by
  rw [distributeToSlots]
  rcases hk : n.toNat with _ | k
  · omega
  · rw [distributeGo, if_pos hn]
    have hrest : ∀ s ∈ distributeGo m k (n - min 128 n) (0 + 1),
        s.metalId = some m ∧ 0 < s.nuggets := by
      intro s hs
      rcases distributeGo_mem m k (n - min 128 n) (0 + 1) s hs with ⟨h1, h2, _⟩
      exact ⟨h1, h2⟩
    have hsum : ((distributeGo m k (n - min 128 n) (0 + 1)).map (fun s => s.nuggets)).sum =
        max (n - min 128 n) 0 := distributeGo_sum m k _ (0 + 1) (by omega)
    rw [List.foldl_cons,
      aggStep_some (rfl : (⟨0, some m, min 128 n⟩ : CrucibleSlot).metalId = some m)
        (by simp; omega),
      addAmount_fresh m _ acc hfresh,
      aggFold_same_metal m _ acc _ hrest hfresh, hsum]
    have heq : min 128 n + max (n - min 128 n) 0 = n := by omega
    simp only [heq]

theorem aggFold_flatten :
    ∀ (amounts : List MetalAmount) (acc : List MetalAmount),
      (amounts.map (fun a => a.metalId)).Nodup →
      (∀ a ∈ amounts, a.metalId ∉ acc.map (fun x => x.metalId)) →
      ((amounts.map (fun a => distributeToSlots a.metalId a.nuggets)).flatten).foldl
        (fun acc slot =>
          match slot.metalId with
          | none => acc
          | some mm => if slot.nuggets > 0 then addAmount acc mm slot.nuggets else acc)
        acc = acc ++ amounts.filter (fun a => 0 < a.nuggets) := by
  intro amounts
  induction amounts with
  | nil => intro acc _ _; simp
  | cons a rest ih =>
    intro acc hnodup hfresh
    simp only [List.map_cons, List.flatten_cons, List.foldl_append]
    simp only [List.map_cons, List.nodup_cons] at hnodup
    by_cases hpos : 0 < a.nuggets
    · rw [aggFold_dist a.metalId a.nuggets acc hpos
        (hfresh a (List.mem_cons_self a rest))]
      have heta : (⟨a.metalId, a.nuggets⟩ : MetalAmount) = a := rfl
      rw [heta]
      have hfresh2 : ∀ b ∈ rest, b.metalId ∉ (acc ++ [a]).map (fun x => x.metalId) := by
        intro b hb
        simp only [List.map_append, List.mem_append, List.map_cons, List.map_nil,
          List.mem_singleton]
        push_neg
        refine ⟨fun hc => hfresh b (List.mem_cons_of_mem a hb) hc, ?_⟩
        intro hc
        exact hnodup.1 (hc ▸ List.mem_map_of_mem (fun x => x.metalId) hb)
      rw [ih (acc ++ [a]) hnodup.2 hfresh2]
      have hfa : (a :: rest).filter (fun x => 0 < x.nuggets) =
          a :: rest.filter (fun x => 0 < x.nuggets) := by
        simp [List.filter_cons, hpos]
      rw [hfa]
      simp
    · rw [distributeToSlots_nonpos a.metalId a.nuggets (by omega)]
      simp only [List.foldl_nil]
      rw [ih acc hnodup.2 (fun b hb => hfresh b (List.mem_cons_of_mem a hb))]
      have hfa : (a :: rest).filter (fun x => 0 < x.nuggets) =
          rest.filter (fun x => 0 < x.nuggets) := by
        simp [List.filter_cons, hpos]
      rw [hfa]

theorem aggFold_congr_data :
    ∀ (l1 l2 : List CrucibleSlot) (acc : List MetalAmount),
      l1.map slotData = l2.map slotData →
      l1.foldl
        (fun acc slot =>
          match slot.metalId with
          | none => acc
          | some mm => if slot.nuggets > 0 then addAmount acc mm slot.nuggets else acc)
        acc =
      l2.foldl
        (fun acc slot =>
          match slot.metalId with
          | none => acc
          | some mm => if slot.nuggets > 0 then addAmount acc mm slot.nuggets else acc)
        acc
  | [], [], _, _ => rfl
  | [], _ :: _, _, h => by simp at h
  | _ :: _, [], _, h => by simp at h
  | a :: l1, b :: l2, acc, h => by
    simp only [List.map_cons, List.cons.injEq] at h
    have hdata : a.metalId = b.metalId ∧ a.nuggets = b.nuggets := by
      have h1 := h.1
      simp only [slotData, Prod.mk.injEq] at h1
      exact h1
    simp only [List.foldl_cons]
    rw [hdata.1, hdata.2]
    exact aggFold_congr_data l1 l2 _ h.2

theorem aggFold_padTo4 :
    ∀ (fuel : ℕ) (l : List CrucibleSlot) (acc : List MetalAmount),
      (padTo4 fuel l).foldl
        (fun acc slot =>
          match slot.metalId with
          | none => acc
          | some mm => if slot.nuggets > 0 then addAmount acc mm slot.nuggets else acc)
        acc =
      l.foldl
        (fun acc slot =>
          match slot.metalId with
          | none => acc
          | some mm => if slot.nuggets > 0 then addAmount acc mm slot.nuggets else acc)
        acc
  | 0, l, acc => rfl
  | fuel + 1, l, acc => by
    rw [padTo4]
    by_cases h : l.length < 4
    · rw [if_pos h, aggFold_padTo4 fuel _ acc, List.foldl_append]
      rfl
    · rw [if_neg h]

/-- The validator's aggregation of a generated crucible recovers exactly
the positive entries of the fill plan, when metals are pairwise
distinct. -/
theorem aggregate_amountsToCrucible (amounts : List MetalAmount)
    (hnodup : (amounts.map (fun a => a.metalId)).Nodup) :
    aggregateAmounts (amountsToCrucible amounts) =
      amounts.filter (fun a => 0 < a.nuggets) := by
  rw [aggregateAmounts]
  show (padTo4 4 _).foldl _ [] = _
  rw [aggFold_padTo4, aggFold_congr_data _ _ [] (reassigned_data amounts)]
  exact aggFold_flatten amounts [] hnodup (by simp)

/-! ## Proofs: scarcity cost (C5) -/

theorem find?_of_nodup :
    ∀ (amounts : List MetalAmount), (amounts.map (fun a => a.metalId)).Nodup →
      ∀ a ∈ amounts, amounts.find? (fun x => x.metalId = a.metalId) = some a
  | [], _, a, ha => by simp at ha
  | b :: rest, hnodup, a, ha => by
    simp only [List.map_cons, List.nodup_cons] at hnodup
    by_cases hba : b.metalId = a.metalId
    · have hab : a = b := by
        rcases List.mem_cons.mp ha with h | h
        · exact h
        · exact absurd (hba ▸ List.mem_map_of_mem (fun x => x.metalId) h) hnodup.1
      subst hab
      simp [List.find?_cons, hba]
    · have hmem : a ∈ rest := by
        rcases List.mem_cons.mp ha with h | h
        · exact absurd (show b.metalId = a.metalId by rw [h]) hba
        · exact h
      rw [List.find?_cons_of_neg _ (by simpa using hba)]
      exact find?_of_nodup rest hnodup.2 a hmem

theorem amounts_pos (r : AlloyRecipe) (amounts : List MetalAmount)
    (hnodup : (amounts.map (fun a => a.metalId)).Nodup)
    (hmetals : ∀ a ∈ amounts, ∃ comp ∈ r.components, comp.metalId = a.metalId)
    (hpres : validateComponentPresence
      (aggregateAmounts (amountsToCrucible amounts)) r = true) :
    ∀ a ∈ amounts, 0 < a.nuggets := by
  intro a ha
  by_contra hle
  rcases hmetals a ha with ⟨comp, hcomp, hcm⟩
  rcases validateComponentPresence_spec hpres comp hcomp with ⟨x, hfind, _⟩
  rw [aggregate_amountsToCrucible amounts hnodup] at hfind
  have hnone : (amounts.filter (fun y => 0 < y.nuggets)).find?
      (fun y => y.metalId = comp.metalId) = none := by
    rw [List.find?_eq_none]
    intro y hy
    rcases List.mem_filter.mp hy with ⟨hymem, hypos⟩
    simp only [decide_eq_true_eq]
    intro hym
    have hya : y = a :=
      List.inj_on_of_nodup_map hnodup hymem ha (hym.trans hcm)
    subst hya
    simp at hypos
    omega
  rw [hnone] at hfind
  exact Option.noConfusion hfind

theorem econLoop_metals (T : ℤ) :
    ∀ (comps : List AlloyComponent) (alloc : ℤ) (acc res : List MetalAmount),
      econLoop T comps alloc acc = some res →
      res.map (fun a => a.metalId) =
        acc.map (fun a => a.metalId) ++ comps.map (fun c => c.metalId)
  | [], _, _, _, h => by simp [econLoop] at h
  | [last], alloc, acc, res, h => by
    rw [econLoop] at h
    split at h
    · exact absurd h (by simp)
    · have hres := Option.some.inj h
      subst hres
      simp
  | c :: c2 :: rest, alloc, acc, res, h => by
    have hrec := econLoop_metals T (c2 :: rest) _ _ res h
    rw [hrec]
    simp

theorem createEconomicalRecipe_metals (r : AlloyRecipe) (t : ℤ)
    (amounts : List MetalAmount)
    (h : createEconomicalRecipe r t = some amounts) :
    List.Perm (amounts.map (fun a => a.metalId))
      (r.components.map (fun c => c.metalId)) := by
  rw [createEconomicalRecipe] at h
  rcases hcomps : r.components with _ | ⟨c1, _ | ⟨c2, rest⟩⟩
  · rw [hcomps] at h
    have hm := econLoop_metals (t * 100) _ _ _ _ h
    simp only [List.map_nil, List.nil_append] at hm
    rw [hm]
    have hperm : List.Perm (sortedByRarity []) ([] : List AlloyComponent) :=
      List.perm_insertionSort _ _
    exact hperm.map (fun c => c.metalId)
  · rw [hcomps] at h
    have hres := Option.some.inj h
    subst hres
    simp
  · rw [hcomps] at h
    have hm := econLoop_metals (t * 100) _ _ _ _ h
    simp only [List.map_nil, List.nil_append] at hm
    rw [hm]
    have hperm : List.Perm (sortedByRarity (c1 :: c2 :: rest)) (c1 :: c2 :: rest) :=
      List.perm_insertionSort _ _
    exact hperm.map (fun c => c.metalId)

theorem calculateRarityCost_val (amounts : List MetalAmount) :
    (calculateRarityCost amounts).val =
      (amounts.map (fun a => (a.nuggets : ℚ) * (getRarityScore a.metalId).val)).sum := by
  have hf := foldl_add_frac
    (fun a : MetalAmount => (Frac.ofInt a.nuggets).mul (getRarityScore a.metalId))
    amounts (Frac.ofInt 0)
  rw [calculateRarityCost, hf, Frac.val_ofInt]
  simp only [Frac.val_mul, Frac.val_ofInt]
  norm_num

theorem slots_rarity_sum (m : MetalId) :
    ∀ (l : List CrucibleSlot), (∀ s ∈ l, s.metalId = some m) →
      (l.map (fun s =>
        match s.metalId with
        | none => (0 : ℚ)
        | some mm => (s.nuggets : ℚ) * (getRarityScore mm).val)).sum =
        ((((l.map (fun s => s.nuggets)).sum : ℤ) : ℚ)) * (getRarityScore m).val
  | [], _ => by simp
  | s :: l, hall => by
    have hs := hall s (List.mem_cons_self s l)
    simp only [List.map_cons, List.sum_cons, hs,
      slots_rarity_sum m l (fun x hx => hall x (List.mem_cons_of_mem s hx))]
    push_cast
    ring

theorem crucibleRarityCost_append (l1 l2 : List CrucibleSlot) :
    crucibleRarityCost ⟨l1 ++ l2⟩ = crucibleRarityCost ⟨l1⟩ + crucibleRarityCost ⟨l2⟩ := by
  simp [crucibleRarityCost]

theorem crucibleRarityCost_padTo4 :
    ∀ (fuel : ℕ) (l : List CrucibleSlot),
      crucibleRarityCost ⟨padTo4 fuel l⟩ = crucibleRarityCost ⟨l⟩
  | 0, l => rfl
  | fuel + 1, l => by
    rw [padTo4]
    by_cases h : l.length < 4
    · rw [if_pos h, crucibleRarityCost_padTo4 fuel _, crucibleRarityCost_append]
      simp [crucibleRarityCost]
    · rw [if_neg h]

theorem crucibleRarityCost_of_nonneg (amounts : List MetalAmount)
    (hpos : ∀ a ∈ amounts, 0 ≤ a.nuggets) :
    crucibleRarityCost (amountsToCrucible amounts) =
      (amounts.map (fun a => (a.nuggets : ℚ) * (getRarityScore a.metalId).val)).sum := by
  have hgen : crucibleRarityCost (amountsToCrucible amounts) =
      crucibleRarityCost
        ⟨(amounts.map (fun a => distributeToSlots a.metalId a.nuggets)).flatten⟩ := by
    show crucibleRarityCost ⟨padTo4 4 _⟩ = _
    rw [crucibleRarityCost_padTo4]
    show (List.map _ _).sum = (List.map _ _).sum
    have hfact : ∀ (l : List CrucibleSlot),
        l.map (fun s =>
          match s.metalId with
          | none => (0 : ℚ)
          | some mm => (s.nuggets : ℚ) * (getRarityScore mm).val) =
        (l.map slotData).map (fun d =>
          match d.1 with
          | none => (0 : ℚ)
          | some mm => (d.2 : ℚ) * (getRarityScore mm).val) := by
      intro l
      rw [List.map_map]
      rfl
    rw [hfact, hfact, reassigned_data amounts]
  rw [hgen]
  clear hgen
  induction amounts with
  | nil => rfl
  | cons a rest ih =>
    have hrest : ∀ x ∈ rest, 0 ≤ x.nuggets :=
      fun x hx => hpos x (List.mem_cons_of_mem a hx)
    have ha : 0 ≤ a.nuggets := hpos a (List.mem_cons_self a rest)
    simp only [List.map_cons, List.flatten_cons]
    rw [crucibleRarityCost_append, ih hrest]
    have hdist : crucibleRarityCost ⟨distributeToSlots a.metalId a.nuggets⟩ =
        (a.nuggets : ℚ) * (getRarityScore a.metalId).val := by
      show (List.map _ _).sum = _
      rw [slots_rarity_sum a.metalId _
        (fun s hs => (distributeToSlots_mem a.metalId a.nuggets s hs).1)]
      rw [distributeToSlots_sum]
      have hmax : max a.nuggets 0 = a.nuggets := by omega
      rw [hmax]
    rw [hdist]
    simp

/-- **C5.** In economical mode, every Success result's `rarityCost` equals
the scarcity cost independently recomputed from the returned Crucible
State: Σ nuggets × score over its slots (the score lookup is total on
every metal by construction of `getRarityScore`). -/
theorem c5_scarcity_cost (r : AlloyRecipe) (ti : Option ℤ)
    (hnodup : (r.components.map (fun c => c.metalId)).Nodup)
    (h : (optimizeEconomical r ti).success = true) :
    ∃ c cost, (optimizeEconomical r ti).crucible = some c ∧
      (optimizeEconomical r ti).rarityCost = some cost ∧
      cost.val = crucibleRarityCost c := by
  rcases optimizeEconomical_success_char r ti _ rfl h with
    ⟨t, amounts, _, _, hcr, _, _, hcru, hcost, hval⟩
  have hperm := createEconomicalRecipe_metals r t amounts hcr
  have hnodup2 : (amounts.map (fun a => a.metalId)).Nodup :=
    (hperm.nodup_iff).mpr hnodup
  have hmetals : ∀ a ∈ amounts, ∃ comp ∈ r.components, comp.metalId = a.metalId := by
    intro a ha
    have hmm : a.metalId ∈ r.components.map (fun c => c.metalId) :=
      hperm.subset (List.mem_map_of_mem (fun x => x.metalId) ha)
    rcases List.mem_map.mp hmm with ⟨comp, hcomp, hcm⟩
    exact ⟨comp, hcomp, hcm⟩
  rcases (validateRecipe_valid_iff _ _ _).mp hval with ⟨_, _, hpres, _, _⟩
  have hp := amounts_pos r amounts hnodup2 hmetals hpres
  refine ⟨amountsToCrucible amounts, calculateRarityCost amounts, hcru, hcost, ?_⟩
  rw [calculateRarityCost_val,
    crucibleRarityCost_of_nonneg amounts (fun a ha => le_of_lt (hp a ha))]

/-- Witness for C5: economical Tin Bronze at target 1. -/
theorem c5_scarcity_cost_witness :
    ∃ c cost, (optimizeEconomical tinBronze (some 1)).crucible = some c ∧
      (optimizeEconomical tinBronze (some 1)).rarityCost = some cost ∧
      cost.val = crucibleRarityCost c :=
  c5_scarcity_cost tinBronze (some 1) (by decide) (by decide)

/-! ## Proofs: maximality (C1) — band arithmetic -/

theorem eps6_val : eps6.val = 1 / 1000000 := by norm_num [eps6, Frac.val]

theorem eps9_val : eps9.val = 1 / 1000000000 := by norm_num [eps9, Frac.val]

theorem percentFor_val (n T : ℤ) :
    (percentFor n T).val = (n * 5 : ℚ) / (T : ℚ) * 100 := by
  rw [percentFor, Frac.val_mul, Frac.val_div, Frac.val_ofInt, Frac.val_ofInt,
    Frac.val_ofInt]
  push_cast
  ring_nf

theorem minNuggetsFor_val (c : AlloyComponent) (T : ℤ) :
    minNuggetsFor c T =
      ⌈((c.minPercent.val - 1 / 100) / 100 * (T : ℚ) - 1 / 1000000) / 5⌉ := by
  rw [minNuggetsFor, Frac.ceil_val, Frac.val_div, Frac.val_sub, Frac.val_mul,
    Frac.val_div, Frac.val_sub, Frac.val_ofInt, Frac.val_ofInt, Frac.val_ofInt,
    tol_val, eps6_val]
  norm_num

theorem maxNuggetsFor_val (c : AlloyComponent) (T : ℤ) :
    maxNuggetsFor c T =
      ⌊((c.maxPercent.val + 1 / 100) / 100 * (T : ℚ) + 1 / 1000000) / 5⌋ := by
  rw [maxNuggetsFor, Frac.floor_val, Frac.val_div, Frac.val_add, Frac.val_mul,
    Frac.val_div, Frac.val_add, Frac.val_ofInt, Frac.val_ofInt, Frac.val_ofInt,
    tol_val, eps6_val]
  norm_num

theorem band_le_minNuggets {c : AlloyComponent} {T n : ℤ} (hT : (0 : ℚ) < (T : ℚ))
    (hband : c.minPercent.val - 1 / 100 ≤ (n * 5 * 100 : ℚ) / (T : ℚ)) :
    minNuggetsFor c T ≤ n := by
  rw [minNuggetsFor_val]
  apply Int.ceil_le.mpr
  have h1 : (c.minPercent.val - 1 / 100) * (T : ℚ) ≤ n * 5 * 100 :=
    (le_div_iff hT).mp hband
  rw [div_le_iff (by norm_num : (0 : ℚ) < 5)]
  nlinarith

theorem band_le_maxNuggets {c : AlloyComponent} {T n : ℤ} (hT : (0 : ℚ) < (T : ℚ))
    (hband : (n * 5 * 100 : ℚ) / (T : ℚ) ≤ c.maxPercent.val + 1 / 100) :
    n ≤ maxNuggetsFor c T := by
  rw [maxNuggetsFor_val]
  apply Int.le_floor.mpr
  have h1 : n * 5 * 100 ≤ (c.maxPercent.val + 1 / 100) * (T : ℚ) :=
    (div_le_iff hT).mp hband
  rw [le_div_iff (by norm_num : (0 : ℚ) < 5)]
  nlinarith

theorem within_of_band {c : AlloyComponent} {T n : ℤ} (hT : (0 : ℚ) < (T : ℚ))
    (hlo : c.minPercent.val - 1 / 100 ≤ (n * 5 * 100 : ℚ) / (T : ℚ))
    (hhi : (n * 5 * 100 : ℚ) / (T : ℚ) ≤ c.maxPercent.val + 1 / 100) :
    withinCodeBand c (percentFor n T) = true := by
  have hp : (percentFor n T).val = (n * 5 * 100 : ℚ) / (T : ℚ) := by
    rw [percentFor_val, div_mul_eq_mul_div]
  rw [withinCodeBand, Bool.and_eq_true, Frac.ble_iff, Frac.ble_iff, hp,
    Frac.val_sub, Frac.val_sub, Frac.val_add, Frac.val_add, tol_val, eps9_val]
  constructor <;> linarith

theorem outside_false_of_band {c : AlloyComponent} {T n : ℤ}
    (hT : (0 : ℚ) < (T : ℚ))
    (hlo : c.minPercent.val - 1 / 100 ≤ (n * 5 * 100 : ℚ) / (T : ℚ))
    (hhi : (n * 5 * 100 : ℚ) / (T : ℚ) ≤ c.maxPercent.val + 1 / 100) :
    outsideCodeBand c (percentFor n T) = false := by
  have hp : (percentFor n T).val = (n * 5 * 100 : ℚ) / (T : ℚ) := by
    rw [percentFor_val, div_mul_eq_mul_div]
  rw [outsideCodeBand, Bool.or_eq_false_iff, Frac.blt_eq_false_iff,
    Frac.blt_eq_false_iff, hp, Frac.val_sub, Frac.val_sub, Frac.val_add,
    Frac.val_add, tol_val, eps9_val]
  constructor <;> linarith

/-! ## Proofs: maximality (C1) — search-loop helpers -/

theorem firstSome_some_exists {α : Type} (f : ℤ → Option α) :
    ∀ (count : ℕ) (start : ℤ) (res : α),
      firstSome f start count = some res → ∃ n, f n = some res
  | 0, start, res, h => by simp [firstSome] at h
  | count + 1, start, res, h => by
    rw [firstSome] at h
    rcases hf : f start with _ | r
    · simp only [hf] at h
      exact firstSome_some_exists f count (start + 1) res h
    · simp only [hf] at h
      exact ⟨start, hf.trans h⟩

theorem firstSome_isSome {α : Type} (f : ℤ → Option α) :
    ∀ (count : ℕ) (start : ℤ) (k : ℕ), k < count →
      (f (start + k)).isSome = true → (firstSome f start count).isSome = true
  | 0, _, k, hk, _ => absurd hk (by omega)
  | count + 1, start, k, hk, hsome => by
    rw [firstSome]
    rcases hf : f start with _ | r
    · rcases k with _ | k2
      · rw [show ((0 : ℕ) : ℤ) = 0 from rfl, add_zero, hf] at hsome
        simp at hsome
      · have hrec := firstSome_isSome f count (start + 1) k2 (by omega) (by
          have hcast : start + 1 + (k2 : ℤ) = start + ((k2 + 1 : ℕ) : ℤ) := by
            push_cast; ring
          rw [hcast]
          exact hsome)
        simpa using hrec
    · simp

theorem zip_metal_eq :
    ∀ (comps : List AlloyComponent) (ext : List MetalAmount),
      ext.map (fun a => a.metalId) = comps.map (fun c => c.metalId) →
      ∀ p ∈ comps.zip ext, p.2.metalId = p.1.metalId
  | [], _, _, p, hp => by simp at hp
  | _ :: _, [], h, p, hp => by simp at h
  | c :: comps, a :: ext, h, p, hp => by
    simp only [List.map_cons, List.cons.injEq] at h
    rcases List.mem_cons.mp hp with h1 | h1
    · subst h1; exact h.1
    · exact zip_metal_eq comps ext h.2 p h1

theorem zip_sum_le_max (T : ℤ) :
    ∀ (comps : List AlloyComponent) (ns : List ℤ), ns.length = comps.length →
      (∀ p ∈ comps.zip ns, p.2 ≤ maxNuggetsFor p.1 T) →
      ns.sum ≤ (comps.map (fun c => maxNuggetsFor c T)).sum
  | [], [], _, _ => by simp
  | [], _ :: _, h, _ => by simp at h
  | _ :: _, [], h, _ => by simp at h
  | c :: comps, n :: ns, h, hall => by
    simp only [List.length_cons] at h
    simp only [List.sum_cons, List.map_cons]
    have h1 : n ≤ maxNuggetsFor c T := hall (c, n) (by simp [List.zip_cons_cons])
    have h2 := zip_sum_le_max T comps ns (by omega)
      (fun p hp => hall p (by simp only [List.zip_cons_cons, List.mem_cons]; exact Or.inr hp))
    omega

theorem zip_min_le_sum (T : ℤ) :
    ∀ (comps : List AlloyComponent) (ns : List ℤ), ns.length = comps.length →
      (∀ p ∈ comps.zip ns, minNuggetsFor p.1 T ≤ p.2) →
      (comps.map (fun c => minNuggetsFor c T)).sum ≤ ns.sum
  | [], [], _, _ => by simp
  | [], _ :: _, h, _ => by simp at h
  | _ :: _, [], h, _ => by simp at h
  | c :: comps, n :: ns, h, hall => by
    simp only [List.length_cons] at h
    simp only [List.sum_cons, List.map_cons]
    have h1 : minNuggetsFor c T ≤ n := hall (c, n) (by simp [List.zip_cons_cons])
    have h2 := zip_min_le_sum T comps ns (by omega)
      (fun p hp => hall p (by simp only [List.zip_cons_cons, List.mem_cons]; exact Or.inr hp))
    omega

theorem sum_le_128_slotCeil : ∀ (ns : List ℤ), ns.sum ≤ 128 * (ns.map slotCeil).sum
  | [] => by simp
  | n :: ns => by
    simp only [List.sum_cons, List.map_cons]
    have h1 := le_mul_slotCeil n
    have h2 := sum_le_128_slotCeil ns
    omega

theorem slotCeil_sum_nonneg (ns : List ℤ) (h : ∀ x ∈ ns, 0 ≤ x) :
    0 ≤ (ns.map slotCeil).sum := by
  apply List.sum_nonneg
  intro x hx
  rcases List.mem_map.mp hx with ⟨n, hn, rfl⟩
  exact slotCeil_nonneg (h n hn)

/-! ## Proofs: maximality (C1) — soundness of the backtracking search -/

theorem solveF_sound (T tN : ℤ) :
    ∀ (fuel : ℕ) (comps : List AlloyComponent) (cn : ℤ) (acc res : List MetalAmount),
      solveF T tN fuel comps cn acc = some res →
      ∃ ext, res = acc ++ ext ∧
        ext.map (fun a => a.metalId) = comps.map (fun c => c.metalId) ∧
        cn + (ext.map (fun a => a.nuggets)).sum = tN ∧
        fitsInFourSlots res = true
  | 0, _, _, _, _, h => by simp [solveF] at h
  | fuel + 1, [], cn, acc, res, h => by
    rw [solveF] at h
    by_cases hcn : cn = tN
    · rw [if_pos hcn] at h
      by_cases hfit : fitsInFourSlots acc
      · rw [if_pos hfit] at h
        have hres := Option.some.inj h
        subst hres
        exact ⟨[], by simp, rfl, by simpa using hcn, hfit⟩
      · rw [if_neg hfit] at h
        exact absurd h (by simp)
    · rw [if_neg hcn] at h
      exact absurd h (by simp)
  | fuel + 1, [c], cn, acc, res, h => by
    rw [solveF] at h
    by_cases hrange : minNuggetsFor c T ≤ tN - cn ∧ tN - cn ≤ maxNuggetsFor c T
    · rw [if_pos hrange] at h
      by_cases hband : withinCodeBand c (percentFor (tN - cn) T)
      · rw [if_pos hband] at h
        by_cases hfit : fitsInFourSlots (acc ++ [⟨c.metalId, tN - cn⟩])
        · rw [if_pos hfit] at h
          have hres := Option.some.inj h
          subst hres
          refine ⟨[⟨c.metalId, tN - cn⟩], rfl, by simp, by simp, hfit⟩
        · rw [if_neg hfit] at h
          exact absurd h (by simp)
      · rw [if_neg hband] at h
        exact absurd h (by simp)
    · rw [if_neg hrange] at h
      exact absurd h (by simp)
  | fuel + 1, c :: c2 :: rest, cn, acc, res, h => by
    rcases firstSome_some_exists _ _ _ _ h with ⟨n, hf⟩
    by_cases hout : outsideCodeBand c (percentFor n T)
    · rw [if_pos hout] at hf
      exact absurd hf (by simp)
    · rw [if_neg hout] at hf
      by_cases hfit : fitsInFourSlots (acc ++ [⟨c.metalId, n⟩])
      · rw [if_pos hfit] at hf
        rcases solveF_sound T tN fuel (c2 :: rest) (cn + n) (acc ++ [⟨c.metalId, n⟩])
          res hf with ⟨ext, hres, hmetals, hsum, hfits⟩
        refine ⟨⟨c.metalId, n⟩ :: ext, ?_, ?_, ?_, hfits⟩
        · rw [hres, List.append_assoc]
          rfl
        · simp only [List.map_cons, hmetals]
        · simp only [List.map_cons, List.sum_cons]
          omega
      · rw [if_neg hfit] at hf
        exact absurd hf (by simp)

/-! ## Proofs: maximality (C1) — completeness of the backtracking search -/

theorem solveF_complete (T tN : ℤ) (hT : (0 : ℚ) < (T : ℚ)) :
    ∀ (fuel : ℕ) (comps : List AlloyComponent) (ns : List ℤ) (cn : ℤ)
      (acc : List MetalAmount),
      comps.length < fuel →
      ns.length = comps.length →
      (∀ x ∈ ns, 0 ≤ x) →
      cn + ns.sum = tN →
      slotsUsed acc + (ns.map slotCeil).sum ≤ 4 →
      (∀ p ∈ comps.zip ns,
        p.1.minPercent.val - 1 / 100 ≤ (p.2 * 5 * 100 : ℚ) / (T : ℚ) ∧
        (p.2 * 5 * 100 : ℚ) / (T : ℚ) ≤ p.1.maxPercent.val + 1 / 100) →
      (solveF T tN fuel comps cn acc).isSome = true
  | 0, comps, _, _, _, hfuel, _, _, _, _, _ => absurd hfuel (by omega)
  | fuel + 1, [], ns, cn, acc, _, hlen, _, hsum, hslots, _ => by
    have hns : ns = [] := List.length_eq_zero.mp (by simpa using hlen)
    subst hns
    have hcn : cn = tN := by simpa using hsum
    have hfit : fitsInFourSlots acc = true := by
      rw [fitsInFourSlots, decide_eq_true_eq]
      simp at hslots
      omega
    rw [solveF, if_pos hcn, if_pos hfit]
    rfl
  | fuel + 1, [c], ns, cn, acc, _, hlen, hpos, hsum, hslots, hbands => by
    rcases ns with _ | ⟨n, ns2⟩
    · simp at hlen
    · have hns2 : ns2 = [] := by
        have hlen' : (n :: ns2).length = ([c] : List AlloyComponent).length := hlen
        simp only [List.length_cons, List.length_nil] at hlen'
        exact List.length_eq_zero.mp (by omega)
      subst hns2
      have hn : tN - cn = n := by
        simp only [List.sum_cons, List.sum_nil] at hsum
        omega
      have hband := hbands (c, n) (by simp [List.zip_cons_cons])
      have hlo : minNuggetsFor c T ≤ tN - cn := by
        rw [hn]; exact band_le_minNuggets hT hband.1
      have hhi : tN - cn ≤ maxNuggetsFor c T := by
        rw [hn]; exact band_le_maxNuggets hT hband.2
      have hwithin : withinCodeBand c (percentFor (tN - cn) T) = true := by
        rw [hn]; exact within_of_band hT hband.1 hband.2
      have hfit : fitsInFourSlots (acc ++ [⟨c.metalId, tN - cn⟩]) = true := by
        rw [fitsInFourSlots, decide_eq_true_eq, slotsUsed_append]
        have hone : slotsUsed [⟨c.metalId, tN - cn⟩] = slotCeil (tN - cn) := by
          simp [slotsUsed_eq_sum]
        rw [hone, hn]
        simp only [List.map_cons, List.map_nil, List.sum_cons, List.sum_nil] at hslots
        omega
      rw [solveF, if_pos ⟨hlo, hhi⟩, if_pos hwithin, if_pos hfit]
      rfl
  | fuel + 1, c :: c2 :: rest, ns, cn, acc, hfuel, hlen, hpos, hsum, hslots, hbands => by
    rcases ns with _ | ⟨n, ns2⟩
    · simp at hlen
    · have hband := hbands (c, n) (by simp [List.zip_cons_cons])
      have hbands2 : ∀ p ∈ (c2 :: rest).zip ns2,
          p.1.minPercent.val - 1 / 100 ≤ (p.2 * 5 * 100 : ℚ) / (T : ℚ) ∧
          (p.2 * 5 * 100 : ℚ) / (T : ℚ) ≤ p.1.maxPercent.val + 1 / 100 := by
        intro p hp
        exact hbands p (by simp only [List.zip_cons_cons, List.mem_cons]; exact Or.inr hp)
      have hlen2 : ns2.length = (c2 :: rest).length := by
        simpa using hlen
      have hpos2 : ∀ x ∈ ns2, 0 ≤ x :=
        fun x hx => hpos x (List.mem_cons_of_mem n hx)
      have hmaxrem : ns2.sum ≤ ((c2 :: rest).map (fun x => maxNuggetsFor x T)).sum :=
        zip_sum_le_max T (c2 :: rest) ns2 hlen2
          (fun p hp => band_le_maxNuggets hT (hbands2 p hp).2)
      have hminrem : ((c2 :: rest).map (fun x => minNuggetsFor x T)).sum ≤ ns2.sum :=
        zip_min_le_sum T (c2 :: rest) ns2 hlen2
          (fun p hp => band_le_minNuggets hT (hbands2 p hp).1)
      have hsum2 : cn + n + ns2.sum = tN := by
        simp only [List.sum_cons] at hsum
        omega
      have hlo : minNuggetsFor c T ≤ n := band_le_minNuggets hT hband.1
      have hhi : n ≤ maxNuggetsFor c T := band_le_maxNuggets hT hband.2
      have hceilnn : 0 ≤ (ns2.map slotCeil).sum := slotCeil_sum_nonneg ns2 hpos2
      have hfit : fitsInFourSlots (acc ++ [⟨c.metalId, n⟩]) = true := by
        rw [fitsInFourSlots, decide_eq_true_eq, slotsUsed_append]
        have hone : slotsUsed [⟨c.metalId, n⟩] = slotCeil n := by
          simp [slotsUsed_eq_sum]
        rw [hone]
        simp only [List.map_cons, List.sum_cons] at hslots
        omega
      have hslots2 : slotsUsed (acc ++ [⟨c.metalId, n⟩]) + (ns2.map slotCeil).sum ≤ 4 := by
        rw [slotsUsed_append]
        have hone : slotsUsed [⟨c.metalId, n⟩] = slotCeil n := by
          simp [slotsUsed_eq_sum]
        rw [hone]
        simp only [List.map_cons, List.sum_cons] at hslots
        omega
      have hrec : (solveF T tN fuel (c2 :: rest) (cn + n) (acc ++ [⟨c.metalId, n⟩])).isSome
          = true :=
        solveF_complete T tN hT fuel (c2 :: rest) ns2 (cn + n) (acc ++ [⟨c.metalId, n⟩])
          (by simp at hfuel ⊢; omega) hlen2 hpos2 (by omega) hslots2 hbands2
      have hout : outsideCodeBand c (percentFor n T) = false :=
        outside_false_of_band hT hband.1 hband.2
      have hfn : ((fun nn =>
          if outsideCodeBand c (percentFor nn T) then none
          else
            let newAmounts := acc ++ [⟨c.metalId, nn⟩]
            if fitsInFourSlots newAmounts then
              solveF T tN fuel (c2 :: rest) (cn + nn) newAmounts
            else none) n).isSome = true := by
        simp only [hout, Bool.false_eq_true, if_false, hfit, if_true]
        exact hrec
      have hgmin : max (minNuggetsFor c T)
          (tN - cn - ((c2 :: rest).map (fun x => maxNuggetsFor x T)).sum) ≤ n := by
        apply max_le hlo
        omega
      have hgmax : n ≤ min (maxNuggetsFor c T)
          (tN - cn - ((c2 :: rest).map (fun x => minNuggetsFor x T)).sum) := by
        apply le_min hhi
        omega
      apply firstSome_isSome _ _ _
        ((n - max (minNuggetsFor c T)
          (tN - cn - ((c2 :: rest).map (fun x => maxNuggetsFor x T)).sum)).toNat)
        (by omega)
      rw [show (max (minNuggetsFor c T)
          (tN - cn - ((c2 :: rest).map (fun x => maxNuggetsFor x T)).sum)) +
          ((n - max (minNuggetsFor c T)
            (tN - cn - ((c2 :: rest).map (fun x => maxNuggetsFor x T)).sum)).toNat : ℤ)
          = n from by omega]
      exact hfn

/-! ## Proofs: maximality (C1) — the binary-search invariant -/

theorem binSearch_inv (r : AlloyRecipe) :
    ∀ (fuel : ℕ) (low high maxValid : ℤ) (best : Option (List MetalAmount)),
      (high + 1 - low).toNat < fuel →
      1 ≤ low →
      low ≤ high + 1 →
      high ≤ 50 →
      (maxValid = 0 ∧ best = none ∨
        (0 < maxValid ∧ low = maxValid + 1 ∧
          ∃ a, best = some a ∧ findValidRecipe r maxValid = some a ∧
            fitsInFourSlots a = true)) →
      (high = 50 ∨
        ¬ ∃ a, findValidRecipe r (high + 1) = some a ∧ fitsInFourSlots a = true) →
      ((binSearch r fuel low high maxValid best).1 = 0 ∧
        (binSearch r fuel low high maxValid best).2 = none) ∨
      (0 < (binSearch r fuel low high maxValid best).1 ∧
        (binSearch r fuel low high maxValid best).1 ≤ 50 ∧
        (∃ a, (binSearch r fuel low high maxValid best).2 = some a ∧
          findValidRecipe r (binSearch r fuel low high maxValid best).1 = some a ∧
          fitsInFourSlots a = true) ∧
        ((binSearch r fuel low high maxValid best).1 = 50 ∨
          ¬ ∃ a, findValidRecipe r ((binSearch r fuel low high maxValid best).1 + 1)
            = some a ∧ fitsInFourSlots a = true))
  | 0, low, high, maxValid, best, hfuel, _, _, _, _, _ => absurd hfuel (by omega)
  | fuel + 1, low, high, maxValid, best, hfuel, hlow1, hlow2, hhigh, hinv, hfrontier => by
    rw [binSearch]
    by_cases hlh : low ≤ high
    · rw [if_pos hlh]
      have hmidlo : low ≤ (low + high) / 2 := by omega
      have hmidhi : (low + high) / 2 ≤ high := by omega
      rcases hfr : findValidRecipe r ((low + high) / 2) with _ | amounts
      · simp only [hfr]
        apply binSearch_inv r fuel low ((low + high) / 2 - 1) maxValid best
          (by omega) hlow1 (by omega) (by omega) hinv
        right
        rintro ⟨a, ha, _⟩
        rw [show (low + high) / 2 - 1 + 1 = (low + high) / 2 from by omega, hfr] at ha
        exact Option.noConfusion ha
      · simp only [hfr]
        by_cases hfits : fitsInFourSlots amounts
        · rw [if_pos hfits]
          apply binSearch_inv r fuel ((low + high) / 2 + 1) high ((low + high) / 2)
            (some amounts) (by omega) (by omega) (by omega) hhigh
          · right
            exact ⟨by omega, rfl, amounts, rfl, hfr, hfits⟩
          · exact hfrontier
        · rw [if_neg hfits]
          apply binSearch_inv r fuel low ((low + high) / 2 - 1) maxValid best
            (by omega) hlow1 (by omega) (by omega) hinv
          right
          rintro ⟨a, ha, haf⟩
          rw [show (low + high) / 2 - 1 + 1 = (low + high) / 2 from by omega, hfr] at ha
          have haa := Option.some.inj ha
          subst haa
          exact hfits haf
    · rw [if_neg hlh]
      rcases hinv with ⟨h0, hb⟩ | ⟨hpos, hloweq, a, hba, hfind, hfits⟩
      · exact Or.inl ⟨h0, hb⟩
      · right
        have hmv : maxValid = high := by omega
        refine ⟨hpos, by omega, ⟨a, hba, hfind, hfits⟩, ?_⟩
        rcases hfrontier with h50 | hnc
        · left
          omega
        · right
          rw [show maxValid + 1 = high + 1 from by omega]
          exact hnc

/-! ## Proofs: maximality (C1) — assembly -/

theorem findValidRecipe_complete (r : AlloyRecipe) (N : ℤ) (hN : 0 < N)
    (ns : List ℤ) (h : SpecFeasiblePlan r N ns) :
    (findValidRecipe r N).isSome = true := by
  rcases h with ⟨hlen, hpos, hsum, hslots, hband⟩
  rw [findValidRecipe]
  have hT : (0 : ℚ) < ((N * 100 : ℤ) : ℚ) := by
    have hq : (0 : ℚ) < (N : ℚ) := by exact_mod_cast hN
    push_cast
    linarith
  apply solveF_complete (N * 100) (N * 20) hT (r.components.length + 1) r.components ns 0 []
  · omega
  · exact hlen
  · exact hpos
  · omega
  · have h0 : slotsUsed [] = 0 := rfl
    rw [h0]
    omega
  · intro p hp
    have hb := hband p hp
    rw [show ((N * 100 : ℤ) : ℚ) = (N : ℚ) * 100 from by push_cast; ring]
    exact hb

theorem maximal_of_search (r : AlloyRecipe)
    (hnodup : (r.components.map (fun c => c.metalId)).Nodup)
    (N : ℤ) (bestAmounts : List MetalAmount)
    (hbs : binSearch r 64 1 50 0 none = (N, some bestAmounts))
    (hval : (validateRecipe (amountsToCrucible bestAmounts) r N).valid = true) :
    1 ≤ N ∧ SpecFeasible r N ∧ ¬ SpecFeasible r (N + 1) := by
  have hbi := binSearch_inv r 64 1 50 0 none (by omega) (by omega) (by omega) (by omega)
    (Or.inl ⟨rfl, rfl⟩) (Or.inl rfl)
  simp only [hbs] at hbi
  rcases hbi with ⟨_, hnone⟩ | ⟨hNpos, hN50, ⟨a, ha, hfind, hfits⟩, hfrontier⟩
  · exact absurd hnone (by simp)
  have haeq := Option.some.inj ha
  subst haeq
  have hfind' := hfind
  rw [findValidRecipe] at hfind'
  rcases solveF_sound (N * 100) (N * 20) _ _ _ _ _ hfind' with ⟨ext, hres, hmet, hsum, _⟩
  simp only [List.nil_append] at hres
  subst hres
  have hnodupB : (bestAmounts.map (fun x => x.metalId)).Nodup := by
    rw [hmet]
    exact hnodup
  rcases (validateRecipe_valid_iff (amountsToCrucible bestAmounts) r N).mp hval with
    ⟨_, _, hpres, htotal, _⟩
  have hposAll : ∀ x ∈ bestAmounts, 0 < x.nuggets := by
    apply amounts_pos r bestAmounts hnodupB ?hmetals hpres
    intro x hx
    have hmm : x.metalId ∈ r.components.map (fun c => c.metalId) := by
      rw [← hmet]
      exact List.mem_map_of_mem _ hx
    rcases List.mem_map.mp hmm with ⟨comp, hc, hcm⟩
    exact ⟨comp, hc, hcm⟩
  have hagg : aggregateAmounts (amountsToCrucible bestAmounts) = bestAmounts := by
    rw [aggregate_amountsToCrucible bestAmounts hnodupB, List.filter_eq_self]
    intro x hx
    simpa using hposAll x hx
  have htot : totalUnitsOf bestAmounts = N * 100 := by
    have ht := validateTotalUnits_spec htotal
    rw [hagg] at ht
    exact ht
  refine ⟨by omega, ⟨bestAmounts.map (fun x => x.nuggets), ?_, ?_, ?_, ?_, ?_⟩, ?_⟩
  · have hl := congrArg List.length hmet
    simpa using hl
  · intro x hx
    rcases List.mem_map.mp hx with ⟨a1, ha1, hax⟩
    rw [← hax]
    exact le_of_lt (hposAll a1 ha1)
  · have hs : (bestAmounts.map (fun x => x.nuggets)).sum = N * 20 := by omega
    rw [hs]
    ring
  · have hf : slotsUsed bestAmounts ≤ 4 := by
      have := hfits
      rw [fitsInFourSlots, decide_eq_true_eq] at this
      exact this
    rw [slotsUsed_eq_sum] at hf
    rw [List.map_map]
    simpa [Function.comp] using hf
  · intro p hp
    rw [List.zip_map_right] at hp
    rcases List.mem_map.mp hp with ⟨q, hq, hpq⟩
    obtain ⟨comp, amt⟩ := q
    subst hpq
    have hq1 : comp ∈ r.components := (List.mem_zip hq).1
    have hq2 : amt ∈ bestAmounts := (List.mem_zip hq).2
    have hmid : amt.metalId = comp.metalId :=
      zip_metal_eq r.components bestAmounts hmet (comp, amt) hq
    obtain ⟨a1, hfind1, _, hlo, hhi⟩ := percent_of_valid hval comp hq1
    rw [hagg] at hfind1 hlo hhi
    rw [htot] at hlo hhi
    push_cast at hlo hhi
    have hfind2 := find?_of_nodup bestAmounts hnodupB amt hq2
    rw [hmid] at hfind2
    have haeq1 : a1 = amt := Option.some.inj (hfind1.symm.trans hfind2)
    subst haeq1
    exact ⟨hlo, hhi⟩
  · rintro ⟨ns, hlen1, hpos1, hsum1, hslots1, hband1⟩
    rcases hfrontier with h50 | hnf
    · have hcap := sum_le_128_slotCeil ns
      rw [h50] at hsum1
      omega
    · apply hnf
      have hcompl := findValidRecipe_complete r (N + 1) (by omega) ns
        ⟨hlen1, hpos1, hsum1, hslots1, hband1⟩
      rcases Option.isSome_iff_exists.mp hcompl with ⟨a2, hfa⟩
      refine ⟨a2, hfa, ?_⟩
      rw [findValidRecipe] at hfa
      rcases solveF_sound _ _ _ _ _ _ _ hfa with ⟨_, _, _, _, hf⟩
      exact hf

/-- **C1.** If the maximization solver succeeds on a recipe (with pairwise
distinct component metals) reporting output count N, then N ≥ 1, a
feasible Fill Plan in the specification's sense exists for N, and none
exists for N + 1. -/
theorem c1_maximality (r : AlloyRecipe)
    (hnodup : (r.components.map (fun c => c.metalId)).Nodup)
    (h : (maximizeIngots r).success = true) :
    1 ≤ (maximizeIngots r).ingotCount ∧
    SpecFeasible r (maximizeIngots r).ingotCount ∧
    ¬ SpecFeasible r ((maximizeIngots r).ingotCount + 1) := by
  rcases maximizeIngots_success_char r (maximizeIngots r) rfl h with
    ⟨bestAmounts, hbs, _, _, hval⟩
  exact maximal_of_search r hnodup (maximizeIngots r).ingotCount bestAmounts hbs hval

theorem c1_maximality_witness :
    (singleCopper.components.map (fun c => c.metalId)).Nodup ∧
    (maximizeIngots singleCopper).success = true ∧
    (1 ≤ (maximizeIngots singleCopper).ingotCount ∧
      SpecFeasible singleCopper (maximizeIngots singleCopper).ingotCount ∧
      ¬ SpecFeasible singleCopper ((maximizeIngots singleCopper).ingotCount + 1)) :=
  ⟨by decide, by decide, c1_maximality singleCopper (by decide) (by decide)⟩
